import Mathlib

/-!
Verification of the process-scheduling / memory-management / synchronization
core of the shell simulator (integrated implementation `new.py`, with the
earlier iterations `deli2_1.py` / `deli3.py` as secondary sources).

The embedding models:
  * `MemoryManager` (paging with FIFO replacement): `MMState`,
    `run_fifo_replacement`, `allocate_pages`;
  * `Process` records and the two schedulers: `rrStep` / `rrFuel` /
    `run_round_robin` (round robin) and the `heapq`-backed priority
    scheduler `heappush` / `heappop` / `run_priority_scheduling`;
  * the metrics report `print_metrics`;
  * the semaphore-based producer/consumer (`ProducerConsumer`) as an
    interleaving transition system `PCStep`.

Machine integers do not overflow in any of the modelled code paths, so
Python integers are modelled as `Nat` (counters, timestamps, page ids)
and `Int` (priorities, metric differences).
-/

namespace ShellSim

/-! ### Global configuration (new.py lines 44-46) -/

def PAGE_SIZE : Nat := 4 * 1024

def TOTAL_MEMORY : Nat := 128 * 1024

def MAX_PAGES : Nat := TOTAL_MEMORY / PAGE_SIZE

/-! ### Memory manager state (new.py lines 112-117)

`free_pages` is the ordered list of free page indices, `page_table` maps a
pid to its allocated pages (a Python `dict`, modelled as an
insertion-ordered association list, which is how `dict` iterates), and
`fifo_queue` holds every currently-allocated page in allocation order. -/

structure MMState where
  free_pages : List Nat
  page_table : List (Nat × List Nat)
  fifo_queue : List Nat
deriving DecidableEq, Repr

/-- The initial memory state: all `cap` pages free
(`free_pages = list(range(MAX_PAGES))`, empty table and queue). -/
def mmInit (cap : Nat) : MMState :=
  { free_pages := List.range cap, page_table := [], fifo_queue := [] }

/-- Python `dict` lookup on the association-list model. -/
def lookupTable (pid : Nat) : List (Nat × List Nat) → Option (List Nat)
  | [] => none
  | (k, v) :: rest => if k = pid then some v else lookupTable pid rest

/-- Python `dict` assignment `page_table[pid] = v`: replace in place if the
key is present, otherwise append at the end (insertion order). -/
def setEntry (pid : Nat) (v : List Nat) : List (Nat × List Nat) → List (Nat × List Nat)
  | [] => [(pid, v)]
  | (k, w) :: rest =>
    if k = pid then (pid, v) :: rest else (k, w) :: setEntry pid v rest

/-- The body of the owner search in `run_fifo_replacement` (new.py lines
143-149): iterate over `page_table.items()` in insertion order, and at the
first entry whose page list contains `page`, `pages.remove(page)` (drop the
first occurrence); if that list becomes empty, `del page_table[pid]`;
then `break`. -/
def removeFromOwner (page : Nat) : List (Nat × List Nat) → List (Nat × List Nat)
  | [] => []
  | (k, pages) :: rest =>
    if page ∈ pages then
      let pages' := pages.erase page
      if pages' = [] then rest else (k, pages') :: rest
    else (k, pages) :: removeFromOwner page rest

/-- The `while len(free_pages) < pages_needed and fifo_queue:` loop of
`run_fifo_replacement`, recursing along the FIFO queue: pop the head,
remove it from its owner's page list, and append it to the free list. -/
def rfrLoop (pages_needed : Nat) (free : List Nat)
    (table : List (Nat × List Nat)) : List Nat → MMState
  | [] => ⟨free, table, []⟩
  | removed :: rest =>
    if free.length < pages_needed then
      rfrLoop pages_needed (free ++ [removed]) (removeFromOwner removed table) rest
    else ⟨free, table, removed :: rest⟩

/-- `MemoryManager.run_fifo_replacement` (new.py lines 137-150). -/
def run_fifo_replacement (pages_needed : Nat) (s : MMState) : MMState :=
  rfrLoop pages_needed s.free_pages s.page_table s.fifo_queue

/-- The allocation loop of `allocate_pages` (new.py lines 127-132):
`for _ in range(pages_needed): if free_pages: page = free_pages.pop(0);
allocated.append(page)`.  Returns `(allocated, free_pages')`. -/
def allocLoop : Nat → List Nat → List Nat × List Nat
  | 0, free => ([], free)
  | _ + 1, [] => ([], [])
  | n + 1, page :: free => ((allocLoop n free).1.cons page, (allocLoop n free).2)

/-- `MemoryManager.allocate_pages` (new.py lines 119-135): if the free list
is short, run FIFO replacement; then pop up to `pages_needed` pages from the
free list, append each to `fifo_queue`, and store the allocated list in
`page_table[pid]` (the same list object is also assigned to
`process.allocated_pages`). -/
def allocate_pages (pid pages_needed : Nat) (s : MMState) : MMState :=
  let s1 := if s.free_pages.length < pages_needed then
    run_fifo_replacement pages_needed s else s
  let allocated := (allocLoop pages_needed s1.free_pages).1
  { free_pages := (allocLoop pages_needed s1.free_pages).2
    page_table := setEntry pid allocated s1.page_table
    fifo_queue := s1.fifo_queue ++ allocated }

/-! ### Operation sequences over the memory manager -/

/-- An externally invokable memory operation: a page allocation on behalf of
a newly admitted process, or a bare FIFO reclamation pass. -/
inductive MMOp where
  | alloc (pid pages_needed : Nat)
  | evict (pages_needed : Nat)
deriving DecidableEq, Repr

def applyOp (s : MMState) : MMOp → MMState
  | .alloc pid n => allocate_pages pid n s
  | .evict n => run_fifo_replacement n s

def applyOps (s : MMState) (ops : List MMOp) : MMState :=
  ops.foldl applyOp s

/-- A sequence of operations is valid when every allocation is made for a
pid not currently present in the page table — which is how the program
invokes `allocate_pages`: once per newly spawned subprocess, whose OS pid is
not that of any live tracked process. -/
def validOps (s : MMState) : List MMOp → Bool
  | [] => true
  | .alloc pid n :: rest =>
    (lookupTable pid s.page_table = none) && validOps (applyOp s (.alloc pid n)) rest
  | .evict n :: rest => validOps (applyOp s (.evict n)) rest

/-- All pages currently held by some process, in `page_table` order. -/
def heldPages (s : MMState) : List Nat :=
  (s.page_table.map Prod.snd).flatten

/-- The bookkeeping invariant of the memory manager: the free list and the
FIFO queue together are a permutation of the full page range, and the FIFO
queue is a permutation of the pages held across all table entries. -/
def MMInv (cap : Nat) (s : MMState) : Prop :=
  (s.free_pages ++ s.fifo_queue).Perm (List.range cap) ∧
    s.fifo_queue.Perm (heldPages s)

/-- How many pages one call to `run_fifo_replacement` reclaims: enough to
reach `pages_needed` free pages, stopping early if the FIFO queue runs dry
(and zero if enough pages are already free). -/
def evictCount (pages_needed : Nat) (s : MMState) : Nat :=
  min (pages_needed - s.free_pages.length) s.fifo_queue.length

/-! ### Process records (new.py lines 156-180)

Timestamps are a logical clock (the wall clock advanced by `time.sleep`
amounts); Python floats are exact on these integer increments. -/

structure Process where
  pid : Nat
  command : String
  priority : Int
  start_time : Nat
  execution_time : Nat
  waiting_time : Nat
  remaining_time : Nat
  response_time : Option Nat
  completion_time : Option Nat
  pages_needed : Nat
  allocated_pages : List Nat
deriving DecidableEq, Repr, Inhabited

/-- `Process.__init__` (new.py lines 163-176): `remaining_time = 5`,
counters zeroed, no response/completion timestamps yet. -/
def mkProcess (pid : Nat) (command : String) (priority : Int)
    (pages_needed now : Nat) : Process :=
  { pid := pid, command := command, priority := priority, start_time := now,
    execution_time := 0, waiting_time := 0, remaining_time := 5,
    response_time := none, completion_time := none,
    pages_needed := pages_needed, allocated_pages := [] }

/-- `Process.__lt__` (new.py lines 178-180): `self.priority > other.priority`,
so Python's min-heap `heapq` behaves as a max-heap on priority. -/
def procLt (a b : Process) : Prop := b.priority < a.priority

instance (a b : Process) : Decidable (procLt a b) := by
  unfold procLt
  infer_instance

/-- `Scheduler.set_time_quantum` (new.py lines 193-196): `max(1, quantum)`. -/
def set_time_quantum (quantum : Int) : Nat := (max 1 quantum).toNat

/-! ### Round-robin scheduling (new.py lines 220-244) -/

/-- One loop iteration of `run_round_robin` acting on the dequeued process:
record `response_time` on the first dispatch, run
`run_time = min(time_quantum, remaining_time)`, sleep that long (the clock
advances), and update the burst counters. -/
def rrStep (quantum clock : Nat) (p : Process) : Process × Nat :=
  let p1 := if p.response_time = none then { p with response_time := some clock } else p
  let run := min quantum p1.remaining_time
  ({ p1 with execution_time := p1.execution_time + run
             remaining_time := p1.remaining_time - run }, clock + run)

/-- `rrStep` iterated on a single process (its successive dispatches). -/
def rrIter (quantum : Nat) : Nat → Process × Nat → Process × Nat
  | 0, pc => pc
  | n + 1, pc => rrIter quantum n (rrStep quantum pc.2 pc.1)

/-- The `while round_robin_queue:` loop of `run_round_robin`, with an
explicit fuel parameter (the loop is partial when `quantum = 0`, which the
program excludes via `set_time_quantum`): dequeue, run one slice, then
requeue at the tail if `remaining_time > 0`, else stamp `completion_time`
and emit the finished record. -/
def rrFuel : Nat → Nat → Nat → List Process → List Process → Option (List Process)
  | _, _, _, [], acc => some acc
  | 0, _, _, _ :: _, _ => none
  | fuel + 1, quantum, clock, p :: rest, acc =>
    let pc := rrStep quantum clock p
    if 0 < pc.1.remaining_time then
      rrFuel fuel quantum pc.2 (rest ++ [pc.1]) acc
    else
      rrFuel fuel quantum pc.2 rest
        (acc ++ [{ pc.1 with completion_time := some pc.2 }])

def sumRemaining (queue : List Process) : Nat :=
  (queue.map Process.remaining_time).sum

/-- `Scheduler.run_round_robin` (new.py lines 220-244), supplied with fuel
`sumRemaining queue + queue.length`, which suffices whenever the quantum is
at least 1 (the well-founded measure of the loop). -/
def run_round_robin (quantum clock : Nat) (queue : List Process) : Option (List Process) :=
  rrFuel (sumRemaining queue + queue.length) quantum clock queue []

/-- The identity of a record together with its burst accounting. -/
def procKey (p : Process) : Nat × Nat × Nat :=
  (p.pid, p.execution_time, p.remaining_time)

/-- What the accounting of a record must be once it has fully executed. -/
def finishKey (p : Process) : Nat × Nat × Nat :=
  (p.pid, p.execution_time + p.remaining_time, 0)

/-! ### Performance metrics (new.py lines 265-275) -/

/-- `Scheduler.print_metrics`: turnaround, waiting and response times of a
completed process (response time defaults to 0 when never dispatched). -/
def print_metrics (p : Process) : Int × Int × Int :=
  let turnaround : Int := (p.completion_time.getD 0 : Int) - (p.start_time : Int)
  let waiting : Int := turnaround - (p.execution_time : Int)
  let response : Int :=
    match p.response_time with
    | some t1 => (t1 : Int) - (p.start_time : Int)
    | none => 0
  (turnaround, waiting, response)

/-! ### CPython `heapq` (used by `Scheduler.priority_queue`)

`heapq.heappush` / `heapq.heappop` transcribed from CPython's `heapq.py`;
the element comparison `<` is `Process.__lt__`, i.e. `procLt`. -/

/-- The binary-heap parent index `(pos - 1) / 2` (CPython `(pos - 1) >> 1`). -/
def parentIdx (i : Nat) : Nat := (i - 1) / 2

/-- The priority stored at slot `i` of the heap array. -/
def heapVal (h : List Process) (i : Nat) : Int := (h.getD i default).priority

/-- `heapq._siftdown(heap, startpos, pos)` with `newitem = heap[pos]`:
bubble `newitem` towards the root while it compares less-than its parent
(`heap[pos] = parent; pos = parentpos`), finally writing `newitem` at the
resting position. -/
def siftdownLoop (heap : List Process) (startpos pos : Nat) (newitem : Process) :
    List Process :=
  if startpos < pos then
    if procLt newitem (heap.getD (parentIdx pos) default) then
      siftdownLoop (heap.set pos (heap.getD (parentIdx pos) default))
        startpos (parentIdx pos) newitem
    else heap.set pos newitem
  else heap.set pos newitem
termination_by pos
decreasing_by unfold parentIdx; omega

/-- The child chosen by the descent loop of `heapq._siftup`: the right
child `2*pos+2` when it exists and the left child does not compare
less-than it (`not heap[childpos] < heap[rightpos]`), otherwise the left
child `2*pos+1`. -/
def siftupChild (heap : List Process) (endpos pos : Nat) : Nat :=
  if 2 * pos + 2 < endpos ∧
      ¬ procLt (heap.getD (2 * pos + 1) default) (heap.getD (2 * pos + 2) default)
    then 2 * pos + 2 else 2 * pos + 1

/-- The descent loop of `heapq._siftup(heap, pos)`: move the chosen child
up into the hole until the hole reaches a child-less position; returns the
shifted array and the final hole position. -/
def siftupLoop (heap : List Process) (endpos pos : Nat) : List Process × Nat :=
  if 2 * pos + 1 < endpos then
    siftupLoop (heap.set pos (heap.getD (siftupChild heap endpos pos) default))
      endpos (siftupChild heap endpos pos)
  else (heap, pos)
termination_by endpos - pos
decreasing_by unfold siftupChild; split <;> omega

/-- `heapq._siftup(heap, pos)`: descend the hole to the bottom, place
`newitem` there, then `_siftdown(heap, pos, hole)`. -/
def siftup (heap : List Process) (pos : Nat) : List Process :=
  let endpos := heap.length
  let newitem := heap.getD pos default
  let hp := siftupLoop heap endpos pos
  siftdownLoop (hp.1.set hp.2 newitem) pos hp.2 newitem

/-- `heapq.heappush(heap, item)`: append then `_siftdown(heap, 0, len-1)`. -/
def heappush (heap : List Process) (item : Process) : List Process :=
  siftdownLoop (heap ++ [item]) 0 heap.length item

/-- `heapq.heappop(heap)`: pop the last element; if the heap is still
non-empty, return the root, move the last element to the root and
`_siftup(heap, 0)`.  `none` models the `IndexError` on an empty heap, a
path `run_priority_scheduling` never takes. -/
def heappop (heap : List Process) : Option (Process × List Process) :=
  match heap.getLast? with
  | none => none
  | some lastelt =>
    let hp := heap.dropLast
    if hp.isEmpty then some (lastelt, [])
    else some (hp.headD default, siftup (hp.set 0 lastelt) 0)

/-- Admission order: `add_scheduled_process` pushes each new record onto
`Scheduler.priority_queue` (new.py line 216). -/
def buildHeap (ps : List Process) : List Process :=
  ps.foldl heappush []

/-- The `while priority_queue:` loop of `run_priority_scheduling` (new.py
lines 246-263) with fuel (each pop shrinks the heap by one, so
`heap.length` suffices): pop the top record, stamp `response_time` on first
dispatch, run its whole remaining burst, stamp `completion_time`.  Returns
the completed records in dispatch order. -/
def runPrioritySchedulingFuel : Nat → Nat → List Process → List Process
  | 0, _, _ => []
  | fuel + 1, clock, heap =>
    match heappop heap with
    | none => []
    | some (p, h') =>
      let p1 := if p.response_time = none then { p with response_time := some clock } else p
      let p2 := { p1 with execution_time := p1.execution_time + p1.remaining_time
                          remaining_time := 0
                          completion_time := some (clock + p1.remaining_time) }
      p2 :: runPrioritySchedulingFuel fuel (clock + p1.remaining_time) h'

def run_priority_scheduling (clock : Nat) (heap : List Process) : List Process :=
  runPrioritySchedulingFuel heap.length clock heap

/-- The `heapq` array invariant under `Process.__lt__`: every non-root
entry does not compare less-than its parent, i.e. the parent's priority is
at least the child's. -/
def HeapInv (h : List Process) : Prop :=
  ∀ i, 0 < i → i < h.length → heapVal h i ≤ heapVal h (parentIdx i)

/-! ### Producer/consumer with semaphores (new.py lines 281-316)

`ProducerConsumer.producer` and `ProducerConsumer.consumer` run on Python
threads; each semaphore operation and each buffer mutation is one atomic
step, and an execution is an arbitrary interleaving of the two threads'
steps.  Item `Item-i` is modelled by its index `i`. -/

def buffer_size : Nat := 5

structure PCState where
  pIdx : Nat
  pPhase : Nat
  cIdx : Nat
  cPhase : Nat
  empty_slots : Nat
  full_slots : Nat
  mutex : Nat
  buffer : List Nat
  consumed : List Nat
deriving DecidableEq, Repr

/-- Initial state: semaphores `mutex = Semaphore(1)`,
`empty_slots = Semaphore(buffer_size)`, `full_slots = Semaphore(0)`,
empty buffer, both threads at the top of their loops. -/
def pcInit (bufferSize : Nat) : PCState :=
  { pIdx := 0, pPhase := 0, cIdx := 0, cPhase := 0,
    empty_slots := bufferSize, full_slots := 0, mutex := 1,
    buffer := [], consumed := [] }

/-- One atomic step of the producer or the consumer.  Phase `k` is the next
statement of the current loop iteration: the producer runs
`empty_slots.acquire(); mutex.acquire(); buffer.append(item);
mutex.release(); full_slots.release()`, the consumer runs
`full_slots.acquire(); mutex.acquire(); if buffer: buffer.pop(0);
mutex.release(); empty_slots.release()`.  A semaphore acquire is enabled
only when its counter is positive (otherwise the thread blocks). -/
inductive PCStep (count : Nat) : PCState → PCState → Prop where
  | producerWait (s : PCState) (h : s.pIdx < count) (hph : s.pPhase = 0)
      (he : 0 < s.empty_slots) :
      PCStep count s { s with empty_slots := s.empty_slots - 1, pPhase := 1 }
  | producerLock (s : PCState) (h : s.pIdx < count) (hph : s.pPhase = 1)
      (hm : 0 < s.mutex) :
      PCStep count s { s with mutex := s.mutex - 1, pPhase := 2 }
  | producerAppend (s : PCState) (h : s.pIdx < count) (hph : s.pPhase = 2) :
      PCStep count s { s with buffer := s.buffer ++ [s.pIdx], pPhase := 3 }
  | producerUnlock (s : PCState) (h : s.pIdx < count) (hph : s.pPhase = 3) :
      PCStep count s { s with mutex := s.mutex + 1, pPhase := 4 }
  | producerSignal (s : PCState) (h : s.pIdx < count) (hph : s.pPhase = 4) :
      PCStep count s { s with full_slots := s.full_slots + 1, pIdx := s.pIdx + 1, pPhase := 0 }
  | consumerWait (s : PCState) (h : s.cIdx < count) (hph : s.cPhase = 0)
      (hf : 0 < s.full_slots) :
      PCStep count s { s with full_slots := s.full_slots - 1, cPhase := 1 }
  | consumerLock (s : PCState) (h : s.cIdx < count) (hph : s.cPhase = 1)
      (hm : 0 < s.mutex) :
      PCStep count s { s with mutex := s.mutex - 1, cPhase := 2 }
  | consumerPop (s : PCState) (h : s.cIdx < count) (hph : s.cPhase = 2) :
      PCStep count s
        (if s.buffer.isEmpty then { s with cPhase := 3 }
         else { s with buffer := s.buffer.tail
                       consumed := s.consumed ++ [s.buffer.headD 0]
                       cPhase := 3 })
  | consumerUnlock (s : PCState) (h : s.cIdx < count) (hph : s.cPhase = 3) :
      PCStep count s { s with mutex := s.mutex + 1, cPhase := 4 }
  | consumerSignal (s : PCState) (h : s.cIdx < count) (hph : s.cPhase = 4) :
      PCStep count s { s with empty_slots := s.empty_slots + 1, cIdx := s.cIdx + 1, cPhase := 0 }

/-- States reachable from the initial state under some interleaving. -/
def PCReach (count bufferSize : Nat) (s : PCState) : Prop :=
  Relation.ReflTransGen (PCStep count) (pcInit bufferSize) s

/-- 1 if the thread has passed phase `t` of its current iteration. -/
def phaseBit (ph t : Nat) : Nat := if t ≤ ph then 1 else 0

/-- The inductive invariant of the producer/consumer system: the semaphore
counters are exact permit accounts of the two threads' progress, the mutex
is held by at most one thread, the buffer holds exactly the produced and
not-yet-consumed items in production order, and the consumed list is the
consumed prefix. -/
def PCInv (count bufferSize : Nat) (s : PCState) : Prop :=
  s.pPhase ≤ 4 ∧ s.cPhase ≤ 4 ∧ s.pIdx ≤ count ∧ s.cIdx ≤ count ∧
  (s.pIdx = count → s.pPhase = 0) ∧ (s.cIdx = count → s.cPhase = 0) ∧
  s.empty_slots + s.pIdx + phaseBit s.pPhase 1 = bufferSize + s.cIdx ∧
  s.full_slots + s.cIdx + phaseBit s.cPhase 1 = s.pIdx ∧
  s.mutex + (if s.pPhase = 2 ∨ s.pPhase = 3 then 1 else 0)
    + (if s.cPhase = 2 ∨ s.cPhase = 3 then 1 else 0) = 1 ∧
  s.buffer = (List.range (s.pIdx + phaseBit s.pPhase 3)).drop (s.cIdx + phaseBit s.cPhase 3) ∧
  s.consumed = List.range (s.cIdx + phaseBit s.cPhase 3)

/-! ### Basic lemmas about the memory-manager operations -/

theorem allocLoop_eq (n : Nat) (free : List Nat) :
    allocLoop n free = (free.take n, free.drop n) := by
  induction n generalizing free with
  | zero => simp [allocLoop]
  | succ n ih =>
    cases free with
    | nil => simp [allocLoop]
    | cons p rest => simp [allocLoop, ih]

theorem removeFromOwner_of_not_mem (page : Nat) (t : List (Nat × List Nat))
    (h : page ∉ (t.map Prod.snd).flatten) : removeFromOwner page t = t := by
  induction t with
  | nil => rfl
  | cons e rest ih =>
    obtain ⟨k, pages⟩ := e
    simp only [List.map_cons, List.flatten_cons, List.mem_append, not_or] at h
    simp [removeFromOwner, h.1, ih h.2]

theorem removeFromOwner_flatten (page : Nat) (t : List (Nat × List Nat))
    (h : page ∈ (t.map Prod.snd).flatten) :
    ((removeFromOwner page t).map Prod.snd).flatten
      = ((t.map Prod.snd).flatten).erase page := by
  induction t with
  | nil => simp at h
  | cons e rest ih =>
    obtain ⟨k, pages⟩ := e
    by_cases hp : page ∈ pages
    · simp only [removeFromOwner, if_pos hp, List.map_cons, List.flatten_cons,
        List.erase_append_left _ hp]
      by_cases he : pages.erase page = []
      · simp [he]
      · simp [he]
    · simp only [List.map_cons, List.flatten_cons, List.mem_append] at h
      rcases h with h | h
      · exact absurd h hp
      · simp only [removeFromOwner, if_neg hp, List.map_cons, List.flatten_cons,
          List.erase_append_right _ hp, ih h]

theorem lookupTable_removeFromOwner (pid page : Nat) (t : List (Nat × List Nat))
    (h : lookupTable pid t = none) :
    lookupTable pid (removeFromOwner page t) = none := by
  induction t with
  | nil => simpa [removeFromOwner] using h
  | cons e rest ih =>
    obtain ⟨k, pages⟩ := e
    simp only [lookupTable] at h
    by_cases hk : k = pid
    · simp [hk] at h
    · simp only [if_neg hk] at h
      by_cases hp : page ∈ pages
      · simp only [removeFromOwner, if_pos hp]
        by_cases he : pages.erase page = []
        · simpa [he] using h
        · simpa [he, lookupTable, hk] using h
      · simpa [removeFromOwner, hp, lookupTable, hk] using ih h

theorem setEntry_of_lookup_none (pid : Nat) (v : List Nat)
    (t : List (Nat × List Nat)) (h : lookupTable pid t = none) :
    setEntry pid v t = t ++ [(pid, v)] := by
  induction t with
  | nil => rfl
  | cons e rest ih =>
    obtain ⟨k, w⟩ := e
    simp only [lookupTable] at h
    by_cases hk : k = pid
    · simp [hk] at h
    · simp only [if_neg hk] at h
      simp [setEntry, hk, ih h]

theorem lookup_setEntry_self (pid : Nat) (v : List Nat) (t : List (Nat × List Nat)) :
    lookupTable pid (setEntry pid v t) = some v := by
  induction t with
  | nil => simp [setEntry, lookupTable]
  | cons e rest ih =>
    obtain ⟨k, w⟩ := e
    by_cases hk : k = pid
    · simp [setEntry, hk, lookupTable]
    · simp [setEntry, hk, lookupTable, ih]

theorem run_fifo_replacement_of_ge (n : Nat) (s : MMState)
    (hf : ¬ s.free_pages.length < n) : run_fifo_replacement n s = s := by
  obtain ⟨free, table, fifo⟩ := s
  cases fifo with
  | nil => rfl
  | cons removed rest =>
    simp only at hf
    simp [run_fifo_replacement, rfrLoop, hf]

theorem run_fifo_replacement_nil (n : Nat) (free : List Nat)
    (table : List (Nat × List Nat)) :
    run_fifo_replacement n ⟨free, table, []⟩ = ⟨free, table, []⟩ := rfl

theorem run_fifo_replacement_cons (n : Nat) (free : List Nat)
    (table : List (Nat × List Nat)) (removed : Nat) (rest : List Nat)
    (hf : free.length < n) :
    run_fifo_replacement n ⟨free, table, removed :: rest⟩
      = run_fifo_replacement n
          ⟨free ++ [removed], removeFromOwner removed table, rest⟩ := by
  simp [run_fifo_replacement, rfrLoop, hf]

theorem run_fifo_replacement_free_fifo (pages_needed : Nat) (s : MMState) :
    (run_fifo_replacement pages_needed s).free_pages
        = s.free_pages ++ s.fifo_queue.take (evictCount pages_needed s) ∧
      (run_fifo_replacement pages_needed s).fifo_queue
        = s.fifo_queue.drop (evictCount pages_needed s) := by
  suffices h : ∀ (n : Nat) (s : MMState), s.fifo_queue.length = n →
      (run_fifo_replacement pages_needed s).free_pages
          = s.free_pages ++ s.fifo_queue.take (evictCount pages_needed s) ∧
        (run_fifo_replacement pages_needed s).fifo_queue
          = s.fifo_queue.drop (evictCount pages_needed s) from h _ s rfl
  intro n
  induction n with
  | zero =>
    intro s hn
    have hq := List.eq_nil_of_length_eq_zero hn
    obtain ⟨free, table, fifo⟩ := s
    simp only at hq
    subst hq
    rw [run_fifo_replacement_nil]
    simp [evictCount]
  | succ n ih =>
    intro s hn
    obtain ⟨free, table, fifo⟩ := s
    by_cases hf : free.length < pages_needed
    · cases fifo with
      | nil => simp at hn
      | cons removed rest =>
        have hrest : rest.length = n := by simpa using hn
        rw [run_fifo_replacement_cons pages_needed free table removed rest hf]
        obtain ⟨h1, h2⟩ :=
          ih ⟨free ++ [removed], removeFromOwner removed table, rest⟩ hrest
        simp only [evictCount] at h1 h2 ⊢
        have hcount : min (pages_needed - free.length) (removed :: rest).length
            = min (pages_needed - (free ++ [removed]).length) rest.length + 1 := by
          simp only [List.length_cons, List.length_append, List.length_nil]
          omega
        rw [hcount]
        refine ⟨?_, ?_⟩
        · rw [h1]
          simp [List.take_succ_cons]
        · rw [h2]
          simp [List.drop_succ_cons]
    · rw [run_fifo_replacement_of_ge pages_needed _ hf]
      simp only [evictCount]
      have hz : pages_needed - free.length = 0 := by
        simp only at hf
        omega
      simp [hz]

theorem run_fifo_replacement_lookup_none (pages_needed pid : Nat) (s : MMState)
    (h : lookupTable pid s.page_table = none) :
    lookupTable pid (run_fifo_replacement pages_needed s).page_table = none := by
  suffices hgen : ∀ (n : Nat) (s : MMState), s.fifo_queue.length = n →
      lookupTable pid s.page_table = none →
      lookupTable pid (run_fifo_replacement pages_needed s).page_table = none from
    hgen _ s rfl h
  intro n
  induction n with
  | zero =>
    intro s hn h
    have hq := List.eq_nil_of_length_eq_zero hn
    obtain ⟨free, table, fifo⟩ := s
    simp only at hq
    subst hq
    rw [run_fifo_replacement_nil]
    exact h
  | succ n ih =>
    intro s hn h
    obtain ⟨free, table, fifo⟩ := s
    by_cases hf : free.length < pages_needed
    · cases fifo with
      | nil => simp at hn
      | cons removed rest =>
        have hrest : rest.length = n := by simpa using hn
        rw [run_fifo_replacement_cons pages_needed free table removed rest hf]
        exact ih _ hrest (lookupTable_removeFromOwner pid removed _ h)
    · rw [run_fifo_replacement_of_ge pages_needed _ hf]
      exact h

/-! ### Preservation of the invariant -/

theorem mmInv_evict (cap pages_needed : Nat) (s : MMState) (hs : MMInv cap s) :
    MMInv cap (run_fifo_replacement pages_needed s) := by
  suffices hgen : ∀ (n : Nat) (s : MMState), s.fifo_queue.length = n → MMInv cap s →
      MMInv cap (run_fifo_replacement pages_needed s) from hgen _ s rfl hs
  intro n
  induction n with
  | zero =>
    intro s hn hs
    have hq := List.eq_nil_of_length_eq_zero hn
    obtain ⟨free, table, fifo⟩ := s
    simp only at hq
    subst hq
    rw [run_fifo_replacement_nil]
    exact hs
  | succ n ih =>
    intro s hn hs
    obtain ⟨free, table, fifo⟩ := s
    by_cases hf : free.length < pages_needed
    · cases fifo with
      | nil => simp at hn
      | cons removed rest =>
        have hrest : rest.length = n := by simpa using hn
        rw [run_fifo_replacement_cons pages_needed free table removed rest hf]
        apply ih _ hrest
        obtain ⟨hperm, hheld⟩ := hs
        have hperm' : ((free ++ (removed :: rest))).Perm (List.range cap) := hperm
        have hheld' : (removed :: rest).Perm ((table.map Prod.snd).flatten) := hheld
        refine ⟨?_, ?_⟩
        · show ((free ++ [removed]) ++ rest).Perm (List.range cap)
          refine List.Perm.trans ?_ hperm'
          rw [List.append_assoc, List.singleton_append]
        · show rest.Perm (((removeFromOwner removed table).map Prod.snd).flatten)
          have hmem : removed ∈ (table.map Prod.snd).flatten :=
            hheld'.mem_iff.mp (by simp)
          rw [removeFromOwner_flatten removed table hmem]
          have herase := hheld'.erase removed
          rwa [List.erase_cons_head] at herase
    · have heq := run_fifo_replacement_of_ge pages_needed
        ⟨free, table, fifo⟩ hf
      rw [heq]
      exact hs

theorem mmInv_alloc (cap pid pages_needed : Nat) (s : MMState) (hs : MMInv cap s)
    (hfresh : lookupTable pid s.page_table = none) :
    MMInv cap (allocate_pages pid pages_needed s) := by
  have key : ∀ s1 : MMState, MMInv cap s1 → lookupTable pid s1.page_table = none →
      MMInv cap
        { free_pages := (allocLoop pages_needed s1.free_pages).2
          page_table := setEntry pid (allocLoop pages_needed s1.free_pages).1 s1.page_table
          fifo_queue := s1.fifo_queue ++ (allocLoop pages_needed s1.free_pages).1 } := by
    intro s1 hinv hfresh1
    obtain ⟨hperm, hheld⟩ := hinv
    have hheld' : s1.fifo_queue.Perm ((s1.page_table.map Prod.snd).flatten) := hheld
    have hfst : (allocLoop pages_needed s1.free_pages).1 = s1.free_pages.take pages_needed := by
      rw [allocLoop_eq]
    have hsnd : (allocLoop pages_needed s1.free_pages).2 = s1.free_pages.drop pages_needed := by
      rw [allocLoop_eq]
    have pfree : (s1.free_pages.drop pages_needed ++ s1.free_pages.take pages_needed).Perm
        s1.free_pages := by
      have h : (s1.free_pages.take pages_needed ++
            s1.free_pages.drop pages_needed).Perm
          (s1.free_pages.drop pages_needed ++ s1.free_pages.take pages_needed) :=
        List.perm_append_comm
      rw [List.take_append_drop] at h
      exact h.symm
    refine ⟨?_, ?_⟩
    · show ((allocLoop pages_needed s1.free_pages).2 ++
          (s1.fifo_queue ++ (allocLoop pages_needed s1.free_pages).1)).Perm (List.range cap)
      rw [hfst, hsnd]
      refine List.Perm.trans ?_ hperm
      have t1 : (s1.free_pages.drop pages_needed ++
            (s1.fifo_queue ++ s1.free_pages.take pages_needed)).Perm
          ((s1.free_pages.drop pages_needed ++ s1.free_pages.take pages_needed) ++ s1.fifo_queue) := by
        rw [List.append_assoc]
        exact List.Perm.append_left _ List.perm_append_comm
      exact t1.trans (pfree.append_right s1.fifo_queue)
    · show (s1.fifo_queue ++ (allocLoop pages_needed s1.free_pages).1).Perm
        (((setEntry pid (allocLoop pages_needed s1.free_pages).1 s1.page_table).map
          Prod.snd).flatten)
      rw [hfst, setEntry_of_lookup_none pid _ _ hfresh1]
      simp only [List.map_append, List.flatten_append, List.map_cons, List.map_nil,
        List.flatten_cons, List.flatten_nil, List.append_nil]
      exact List.Perm.append hheld' (List.Perm.refl _)
  unfold allocate_pages
  by_cases hf : s.free_pages.length < pages_needed
  · simp only [if_pos hf]
    exact key _ (mmInv_evict cap pages_needed s hs)
      (run_fifo_replacement_lookup_none pages_needed pid s hfresh)
  · simp only [if_neg hf]
    exact key s hs hfresh

theorem mmInv_applyOps (cap : Nat) (s : MMState) (ops : List MMOp)
    (hs : MMInv cap s) (hv : validOps s ops = true) :
    MMInv cap (applyOps s ops) := by
  induction ops generalizing s with
  | nil => simpa [applyOps] using hs
  | cons op rest ih =>
    cases op with
    | alloc pid n =>
      simp only [validOps, Bool.and_eq_true, decide_eq_true_eq] at hv
      have h1 : MMInv cap (applyOp s (.alloc pid n)) :=
        mmInv_alloc cap pid n s hs hv.1
      have := ih (applyOp s (.alloc pid n)) h1 hv.2
      simpa [applyOps] using this
    | evict n =>
      simp only [validOps] at hv
      have h1 : MMInv cap (applyOp s (.evict n)) := mmInv_evict cap n s hs
      have := ih (applyOp s (.evict n)) h1 hv
      simpa [applyOps] using this

theorem mmInv_init (cap : Nat) : MMInv cap (mmInit cap) := by
  constructor <;> simp [mmInit, heldPages]

/-- Conservation and disjointness, derived from the invariant. -/
theorem mmInv_conservation (cap : Nat) (s : MMState) (hs : MMInv cap s) :
    s.free_pages.length + (s.page_table.map (fun e => e.2.length)).sum = cap ∧
      ∀ p ∈ s.free_pages, p ∉ heldPages s := by
  obtain ⟨hperm, hheld⟩ := hs
  have hlen : s.free_pages.length + s.fifo_queue.length = cap := by
    have := hperm.length_eq
    simpa [List.length_append, List.length_range] using this
  have hsum : s.fifo_queue.length = (s.page_table.map (fun e => e.2.length)).sum := by
    rw [hheld.length_eq]
    simp [heldPages, List.length_flatten, Function.comp_def]
  have hnodup : (s.free_pages ++ s.fifo_queue).Nodup :=
    hperm.nodup_iff.mpr (List.nodup_range cap)
  rw [List.nodup_append] at hnodup
  refine ⟨by omega, ?_⟩
  intro p hpfree hpheld
  exact hnodup.2.2 hpfree (hheld.mem_iff.mpr hpheld)

/-! ### Claim C1: page conservation -/

/-- C1: For every valid sequence of page-allocation and page-reclamation
(eviction) operations starting from the full pool, the number of free pages
plus the total number of pages held across all processes equals the fixed
capacity `MAX_PAGES`, and no page identifier is simultaneously in the free
list and owned by a process.  (Every prefix of a valid sequence is itself a
valid sequence, so this holds after each operation; validity states that
each allocation is made for a pid that is not yet in the page table, which
is how the program calls `allocate_pages` — once per newly spawned
process.) -/
theorem c1_page_conservation (ops : List MMOp)
    (hv : validOps (mmInit MAX_PAGES) ops = true) :
    (applyOps (mmInit MAX_PAGES) ops).free_pages.length
        + ((applyOps (mmInit MAX_PAGES) ops).page_table.map (fun e => e.2.length)).sum
      = MAX_PAGES ∧
    ∀ p ∈ (applyOps (mmInit MAX_PAGES) ops).free_pages,
      p ∉ heldPages (applyOps (mmInit MAX_PAGES) ops) :=
  mmInv_conservation MAX_PAGES _
    (mmInv_applyOps MAX_PAGES _ ops (mmInv_init MAX_PAGES) hv)

theorem c1_page_conservation_witness :
    validOps (mmInit MAX_PAGES) [.alloc 1 2, .alloc 2 31, .evict 5] = true ∧
    ((applyOps (mmInit MAX_PAGES) [.alloc 1 2, .alloc 2 31, .evict 5]).free_pages.length
        + ((applyOps (mmInit MAX_PAGES)
            [.alloc 1 2, .alloc 2 31, .evict 5]).page_table.map
              (fun e => e.2.length)).sum
      = MAX_PAGES) :=
  ⟨by decide, (c1_page_conservation [.alloc 1 2, .alloc 2 31, .evict 5] (by decide)).1⟩

/-! ### Claim C2: the all-or-nothing contract fails -/

/-- C2 counterexample: requesting 40 pages from the fresh 32-page pool does
not fail with an `InsufficientMemory` error and does not leave the state
unchanged — `allocate_pages` silently grants the 32 available pages, a
partial allocation that is positive and strictly smaller than the request.
(No error path exists in `allocate_pages` at all.) -/
theorem c2_counterexample :
    lookupTable 1 (allocate_pages 1 40 (mmInit MAX_PAGES)).page_table
        = some (List.range 32) ∧
    (List.range 32).length = 32 ∧ 0 < 32 ∧ 32 < 40 ∧
    allocate_pages 1 40 (mmInit MAX_PAGES) ≠ mmInit MAX_PAGES := by
  refine ⟨by decide, by decide, by decide, by decide, by decide⟩

/-- C2 (amended): allocation is never rejected; after running eviction the
request is served from whatever is free, so a request for `count` pages is
granted exactly `min count cap` pages — the full request when
`count ≤ cap` (capacity `cap = MAX_PAGES` in the program), and a silent
partial allocation of all `cap` pages when `count > cap`. -/
theorem c2_amended_partial_allocation (cap pid count : Nat) (s : MMState)
    (hs : MMInv cap s) :
    ∃ allocated,
      lookupTable pid (allocate_pages pid count s).page_table = some allocated ∧
        allocated.length = min count cap := by
  have hlen : s.free_pages.length + s.fifo_queue.length = cap := by
    have := hs.1.length_eq
    simpa [List.length_append, List.length_range] using this
  unfold allocate_pages
  by_cases hf : s.free_pages.length < count
  · simp only [if_pos hf]
    obtain ⟨h1, _h2⟩ := run_fifo_replacement_free_fifo count s
    refine ⟨_, lookup_setEntry_self pid _ _, ?_⟩
    have htake : (allocLoop count (run_fifo_replacement count s).free_pages).1
        = (run_fifo_replacement count s).free_pages.take count := by
      rw [allocLoop_eq]
    rw [htake, List.length_take, h1]
    have hcnt : evictCount count s ≤ s.fifo_queue.length := Nat.min_le_right _ _
    have : (s.free_pages ++ s.fifo_queue.take (evictCount count s)).length
        = s.free_pages.length + evictCount count s := by
      simp [List.length_append, List.length_take]
      omega
    rw [this]
    simp only [evictCount] at *
    omega
  · simp only [if_neg hf]
    refine ⟨_, lookup_setEntry_self pid _ _, ?_⟩
    have htake : (allocLoop count s.free_pages).1 = s.free_pages.take count := by
      rw [allocLoop_eq]
    rw [htake, List.length_take]
    omega

theorem c2_amended_partial_allocation_witness :
    MMInv MAX_PAGES (mmInit MAX_PAGES) ∧
    ∃ allocated,
      lookupTable 9 (allocate_pages 9 40 (mmInit MAX_PAGES)).page_table = some allocated ∧
        allocated.length = min 40 MAX_PAGES :=
  ⟨mmInv_init MAX_PAGES,
    c2_amended_partial_allocation MAX_PAGES 9 40 (mmInit MAX_PAGES) (mmInv_init MAX_PAGES)⟩

/-! ### Claim C3: FIFO eviction order -/

/-- C3: Eviction reclaims pages strictly in allocation order — one call to
`run_fifo_replacement` moves exactly the prefix `take (evictCount needed s)`
of the FIFO queue (the oldest-allocated pages, head first) to the free
list, stopping as soon as `needed` pages are free or the queue is
exhausted; a requesting pid that owns no pages (the only way the program
calls it: allocation happens for freshly spawned processes) never has a
page selected; and in the concrete capacity-3 scenario — A holds 3 pages,
B requests 2 — exactly A's 2 oldest pages are reclaimed, A keeps 1 page
and B receives 2 pages. -/
theorem c3_fifo_eviction_order (needed pid : Nat) (s : MMState)
    (hfresh : lookupTable pid s.page_table = none) :
    ((run_fifo_replacement needed s).free_pages
        = s.free_pages ++ s.fifo_queue.take (evictCount needed s) ∧
      (run_fifo_replacement needed s).fifo_queue
        = s.fifo_queue.drop (evictCount needed s)) ∧
    (∀ page ∈ s.fifo_queue.take (evictCount needed s),
      ∀ l, lookupTable pid s.page_table = some l → page ∉ l) ∧
    (lookupTable 1 (allocate_pages 2 2 (allocate_pages 1 3 (mmInit 3))).page_table
        = some [2] ∧
      lookupTable 2 (allocate_pages 2 2 (allocate_pages 1 3 (mmInit 3))).page_table
        = some [0, 1] ∧
      (allocate_pages 2 2 (allocate_pages 1 3 (mmInit 3))).free_pages = [] ∧
      (allocate_pages 2 2 (allocate_pages 1 3 (mmInit 3))).fifo_queue = [2, 0, 1]) := by
  refine ⟨run_fifo_replacement_free_fifo needed s, ?_, by decide⟩
  intro page _ l hl
  rw [hfresh] at hl
  exact absurd hl (by simp)

theorem c3_fifo_eviction_order_witness :
    lookupTable 2 (allocate_pages 1 3 (mmInit 3)).page_table = none ∧
    ((run_fifo_replacement 2 (allocate_pages 1 3 (mmInit 3))).free_pages
        = (allocate_pages 1 3 (mmInit 3)).free_pages
          ++ (allocate_pages 1 3 (mmInit 3)).fifo_queue.take
              (evictCount 2 (allocate_pages 1 3 (mmInit 3))) ∧
      (run_fifo_replacement 2 (allocate_pages 1 3 (mmInit 3))).fifo_queue
        = (allocate_pages 1 3 (mmInit 3)).fifo_queue.drop
            (evictCount 2 (allocate_pages 1 3 (mmInit 3)))) :=
  ⟨by decide, (c3_fifo_eviction_order 2 2 (allocate_pages 1 3 (mmInit 3)) (by decide)).1⟩

/-! ### Round-robin dispatch lemmas -/

theorem rrStep_remaining (q c : Nat) (p : Process) :
    (rrStep q c p).1.remaining_time = p.remaining_time - min q p.remaining_time := by
  cases hp : p.response_time <;> simp [rrStep, hp]

theorem rrStep_execution (q c : Nat) (p : Process) :
    (rrStep q c p).1.execution_time = p.execution_time + min q p.remaining_time := by
  cases hp : p.response_time <;> simp [rrStep, hp]

theorem rrStep_pid (q c : Nat) (p : Process) : (rrStep q c p).1.pid = p.pid := by
  cases hp : p.response_time <;> simp [rrStep, hp]

theorem rrStep_exec_add_rem (q c : Nat) (p : Process) :
    (rrStep q c p).1.execution_time + (rrStep q c p).1.remaining_time
      = p.execution_time + p.remaining_time := by
  rw [rrStep_execution, rrStep_remaining]
  have := Nat.min_le_right q p.remaining_time
  omega

theorem rrStep_response_some (q c : Nat) (p : Process) (t : Nat)
    (h : p.response_time = some t) : (rrStep q c p).1.response_time = some t := by
  simp [rrStep, h]

theorem rrStep_response_none (q c : Nat) (p : Process)
    (h : p.response_time = none) : (rrStep q c p).1.response_time = some c := by
  simp [rrStep, h]

theorem rrIter_remaining (q : Nat) (k : Nat) (p : Process) (c : Nat) :
    (rrIter q k (p, c)).1.remaining_time = p.remaining_time - k * q := by
  induction k generalizing p c with
  | zero => simp [rrIter]
  | succ k ih =>
    show (rrIter q k (rrStep q c p)).1.remaining_time = _
    have hpair : rrStep q c p = ((rrStep q c p).1, (rrStep q c p).2) := rfl
    rw [hpair, ih, rrStep_remaining, Nat.succ_mul]
    have := Nat.min_le_right q p.remaining_time
    omega

theorem rrIter_exec_add_rem (q : Nat) (k : Nat) (p : Process) (c : Nat) :
    (rrIter q k (p, c)).1.execution_time + (rrIter q k (p, c)).1.remaining_time
      = p.execution_time + p.remaining_time := by
  induction k generalizing p c with
  | zero => simp [rrIter]
  | succ k ih =>
    show (rrIter q k (rrStep q c p)).1.execution_time
        + (rrIter q k (rrStep q c p)).1.remaining_time = _
    have hpair : rrStep q c p = ((rrStep q c p).1, (rrStep q c p).2) := rfl
    rw [hpair, ih, rrStep_exec_add_rem]

theorem sumRemaining_append (l₁ l₂ : List Process) :
    sumRemaining (l₁ ++ l₂) = sumRemaining l₁ + sumRemaining l₂ := by
  simp [sumRemaining]

/-- If a dispatched process is requeued (`remaining_time` still positive),
its slice was the full quantum. -/
theorem rrStep_requeue_run (q c : Nat) (p : Process)
    (h : 0 < (rrStep q c p).1.remaining_time) :
    min q p.remaining_time = q ∧ q < p.remaining_time := by
  rw [rrStep_remaining] at h
  rcases Nat.le_total q p.remaining_time with hle | hle
  · rw [Nat.min_eq_left hle] at h ⊢
    omega
  · rw [Nat.min_eq_right hle] at h
    omega

/-- Sufficient fuel for the round-robin loop: with quantum at least 1, the
sum of remaining bursts plus the queue length is a strictly decreasing
measure of the loop. -/
theorem rrFuel_isSome (q : Nat) (hq : 1 ≤ q) :
    ∀ (fuel c : Nat) (queue acc : List Process),
      sumRemaining queue + queue.length ≤ fuel →
      (rrFuel fuel q c queue acc).isSome := by
  intro fuel
  induction fuel with
  | zero =>
    intro c queue acc hle
    cases queue with
    | nil => simp [rrFuel]
    | cons p rest => simp [sumRemaining] at hle
  | succ fuel ih =>
    intro c queue acc hle
    cases queue with
    | nil => simp [rrFuel]
    | cons p rest =>
      simp only [rrFuel]
      by_cases h0 : 0 < (rrStep q c p).1.remaining_time
      · rw [if_pos h0]
        apply ih
        obtain ⟨hrun, hlt⟩ := rrStep_requeue_run q c p h0
        rw [sumRemaining_append]
        have hrem : (rrStep q c p).1.remaining_time = p.remaining_time - q := by
          rw [rrStep_remaining, hrun]
        simp only [sumRemaining, List.map_cons, List.sum_cons, List.map_nil,
          List.sum_nil, List.length_append, List.length_cons, List.length_nil] at hle ⊢
        omega
      · rw [if_neg h0]
        apply ih
        simp only [sumRemaining, List.map_cons, List.sum_cons,
          List.length_cons] at hle ⊢
        omega

/-- Completion accounting of the round-robin loop: every record in the
result beyond the accumulator is a queued record run to exhaustion — same
pid, `remaining_time = 0`, and `execution_time` grown by exactly the
initial remaining burst. -/
theorem rrFuel_keys (q : Nat) :
    ∀ (fuel c : Nat) (queue acc res : List Process),
      rrFuel fuel q c queue acc = some res →
      (res.map procKey).Perm (acc.map procKey ++ queue.map finishKey) := by
  intro fuel
  induction fuel with
  | zero =>
    intro c queue acc res h
    cases queue with
    | nil =>
      simp only [rrFuel, Option.some.injEq] at h
      subst h
      simp
    | cons p rest => simp [rrFuel] at h
  | succ fuel ih =>
    intro c queue acc res h
    cases queue with
    | nil =>
      simp only [rrFuel, Option.some.injEq] at h
      subst h
      simp
    | cons p rest =>
      simp only [rrFuel] at h
      by_cases h0 : 0 < (rrStep q c p).1.remaining_time
      · rw [if_pos h0] at h
        have hperm := ih _ _ _ _ h
        have hkey : finishKey (rrStep q c p).1 = finishKey p := by
          unfold finishKey
          rw [rrStep_pid, rrStep_exec_add_rem]
        refine hperm.trans ?_
        refine List.Perm.append_left _ ?_
        rw [List.map_append, List.map_cons, List.map_nil, hkey, List.map_cons]
        exact List.perm_append_singleton _ _
      · rw [if_neg h0] at h
        have hperm := ih _ _ _ _ h
        have hkey : procKey { (rrStep q c p).1 with completion_time := some (rrStep q c p).2 }
            = finishKey p := by
          unfold procKey finishKey
          have hrem : (rrStep q c p).1.remaining_time = 0 := by omega
          have hsum := rrStep_exec_add_rem q c p
          have hpid := rrStep_pid q c p
          simp only
          rw [hpid, hrem]
          refine congrArg _ ?_
          refine congrArg (fun x => (x, 0)) ?_
          omega
        refine hperm.trans ?_
        rw [List.map_append, List.map_cons, List.map_nil, hkey, List.map_cons,
          List.append_assoc, List.singleton_append]

/-! ### Claim C10: round-robin termination -/

/-- C10: `set_time_quantum` clamps every configured quantum to at least 1,
and for every quantum at least 1 the round-robin loop terminates on every
finite queue: the fuel `sumRemaining queue + queue.length` — the sum of
remaining bursts plus the queue length, the strictly decreasing
well-founded measure of the loop — always suffices, and the queue
empties. -/
theorem c10_round_robin_termination (quantum : Int) (q c : Nat)
    (queue : List Process) (hq : 1 ≤ q) :
    1 ≤ set_time_quantum quantum ∧ (run_round_robin q c queue).isSome := by
  constructor
  · unfold set_time_quantum
    rcases Int.le_total 1 quantum with h | h
    · rw [max_eq_right h]
      omega
    · rw [max_eq_left h]
      rfl
  · exact rrFuel_isSome q hq _ c queue [] (Nat.le_refl _)

theorem c10_round_robin_termination_witness :
    (1 : Nat) ≤ 2 ∧
    (1 ≤ set_time_quantum (-7) ∧
      (run_round_robin 2 0 [⟨1, "", 1, 0, 0, 0, 5, none, none, 2, []⟩,
        ⟨2, "", 3, 0, 0, 0, 5, none, none, 2, []⟩]).isSome) :=
  ⟨by decide,
    c10_round_robin_termination (-7) 2 0
      [⟨1, "", 1, 0, 0, 0, 5, none, none, 2, []⟩,
        ⟨2, "", 3, 0, 0, 0, 5, none, none, 2, []⟩] (by decide)⟩

/-! ### Claim C4: round-robin quantum accounting -/

/-- C4: Under round robin with quantum `q ≥ 1`, every dispatch runs the
dequeued process for `min q remaining_time`, decrementing `remaining_time`
and incrementing `execution_time` (the consumed burst) by that amount; a
process entering with burst `R > 0` is still unfinished after each of the
first `⌈R/q⌉ - 1` dispatches (hence requeued at the tail each time, by the
`remaining_time > 0` branch of the loop), reaches `remaining_time = 0` at
dispatch `⌈R/q⌉ = (R + q - 1) / q` exactly, with consumed burst exactly
`R`; and the loop run on such a process completes it with
`execution_time = R`. -/
theorem c4_round_robin_accounting (q R : Nat) (p : Process) (c : Nat)
    (hq : 1 ≤ q) (hR : p.remaining_time = R) (hR0 : 0 < R)
    (he : p.execution_time = 0) :
    (∀ (p' : Process) (c' : Nat),
        (rrStep q c' p').1.remaining_time
            = p'.remaining_time - min q p'.remaining_time ∧
          (rrStep q c' p').1.execution_time
            = p'.execution_time + min q p'.remaining_time) ∧
    ((rrIter q ((R + q - 1) / q) (p, c)).1.remaining_time = 0 ∧
      (rrIter q ((R + q - 1) / q) (p, c)).1.execution_time = R) ∧
    (∀ m, m < (R + q - 1) / q → 0 < (rrIter q m (p, c)).1.remaining_time) ∧
    (∃ pf, run_round_robin q c [p] = some [pf] ∧
      pf.execution_time = R ∧ pf.remaining_time = 0) := by
  have hq0 : 0 < q := hq
  have hceil_ge : R ≤ ((R + q - 1) / q) * q := by
    by_contra hcon
    push_neg at hcon
    have hstep : ((R + q - 1) / q + 1) * q ≤ R + q - 1 := by
      rw [Nat.succ_mul]
      omega
    have := (Nat.le_div_iff_mul_le hq0).mpr hstep
    omega
  have hceil_lt : ∀ m, m < (R + q - 1) / q → m * q < R := by
    intro m hm
    have h1 : m + 1 ≤ (R + q - 1) / q := hm
    have h2 : (m + 1) * q ≤ R + q - 1 := (Nat.le_div_iff_mul_le hq0).mp h1
    rw [Nat.succ_mul] at h2
    omega
  refine ⟨fun p' c' => ⟨rrStep_remaining q c' p', rrStep_execution q c' p'⟩, ⟨?_, ?_⟩, ?_, ?_⟩
  · rw [rrIter_remaining, hR]
    omega
  · have hsum := rrIter_exec_add_rem q ((R + q - 1) / q) p c
    have hrem : (rrIter q ((R + q - 1) / q) (p, c)).1.remaining_time = 0 := by
      rw [rrIter_remaining, hR]
      omega
    omega
  · intro m hm
    rw [rrIter_remaining, hR]
    have := hceil_lt m hm
    omega
  · have hsome := rrFuel_isSome q hq (sumRemaining [p] + 1) c [p] [] (by simp)
    obtain ⟨res, hres⟩ := Option.isSome_iff_exists.mp hsome
    have hperm := rrFuel_keys q _ c [p] [] res hres
    simp only [List.map_nil, List.nil_append, List.map_cons] at hperm
    rw [List.perm_singleton] at hperm
    cases res with
    | nil => simp at hperm
    | cons pf tl =>
      cases tl with
      | nil =>
        simp only [List.map_cons, List.map_nil, List.cons.injEq, and_true] at hperm
        refine ⟨pf, ?_, ?_, ?_⟩
        · exact hres
        · have hx := congrArg (fun x : Nat × Nat × Nat => x.2.1) hperm
          simp only [procKey, finishKey] at hx
          rw [hx, he, hR]
          omega
        · have hx := congrArg (fun x : Nat × Nat × Nat => x.2.2) hperm
          simp only [procKey, finishKey] at hx
          rw [hx]
      | cons _ _ => simp at hperm

theorem c4_round_robin_accounting_witness :
    ((1 : Nat) ≤ 2 ∧ (⟨3, "", 1, 0, 0, 0, 5, none, none, 2, []⟩ : Process).remaining_time = 5 ∧
      (0 : Nat) < 5 ∧ (⟨3, "", 1, 0, 0, 0, 5, none, none, 2, []⟩ : Process).execution_time = 0) ∧
    ((rrIter 2 ((5 + 2 - 1) / 2) ((⟨3, "", 1, 0, 0, 0, 5, none, none, 2, []⟩ : Process), 0)).1.remaining_time = 0 ∧
      (rrIter 2 ((5 + 2 - 1) / 2) ((⟨3, "", 1, 0, 0, 0, 5, none, none, 2, []⟩ : Process), 0)).1.execution_time = 5) :=
  ⟨⟨by decide, by decide, by decide, by decide⟩,
    (c4_round_robin_accounting 2 5 ⟨3, "", 1, 0, 0, 0, 5, none, none, 2, []⟩ 0
      (by decide) (by decide) (by decide) (by decide)).2.1⟩

/-! ### Claim C6: fate of a fully-evicted victim -/

/-- C6 counterexample: in the capacity-2 store, evicting both of A's pages
to serve B deletes A's `page_table` entry outright (no `memoryStarved`
marking exists anywhere in the code), and the round-robin scheduler does
not refuse to dispatch the page-less victim: run on A's record (whose
`allocated_pages` was emptied by the eviction), the loop dispatches it
immediately and runs it to completion (`execution_time = 5`), contradicting
the claimed refusal to dispatch until pages are granted. -/
theorem c6_counterexample :
    lookupTable 1 (allocate_pages 2 2 (allocate_pages 1 2 (mmInit 2))).page_table = none ∧
    run_round_robin 2 0 [⟨1, "", 1, 0, 0, 0, 5, none, none, 2, []⟩]
      = some [⟨1, "", 1, 0, 5, 0, 0, some 0, some 5, 2, []⟩] ∧
    (5 : Nat) ≠ 0 := by
  refine ⟨by decide, by decide, by decide⟩

/-- C6 (amended): eviction never kills the victim's process record — the
memory manager touches only the page bookkeeping, so the record stays in
the scheduler queues — but when the victim's page list empties, its
`page_table` entry is deleted; no `memoryStarved` flag exists, and the
schedulers dispatch the page-less victim exactly as any other record: one
round-robin dispatch step is entirely independent of `allocated_pages`. -/
theorem c6_amended_victim_retained_but_dispatched :
    (∀ (q c : Nat) (p : Process) (l : List Nat),
        rrStep q c { p with allocated_pages := l }
          = ({ (rrStep q c p).1 with allocated_pages := l }, (rrStep q c p).2)) ∧
    lookupTable 1 (allocate_pages 2 2 (allocate_pages 1 2 (mmInit 2))).page_table = none ∧
    lookupTable 2 (allocate_pages 2 2 (allocate_pages 1 2 (mmInit 2))).page_table
      = some [0, 1] ∧
    run_round_robin 3 0 [⟨1, "", 1, 0, 0, 0, 5, none, none, 2, []⟩]
      = some [⟨1, "", 1, 0, 5, 0, 0, some 0, some 5, 2, []⟩] := by
  refine ⟨?_, by decide, by decide, by decide⟩
  intro q c p l
  cases hp : p.response_time <;> simp [rrStep, hp]

/-! ### Claim C7: no starvation cap exists -/

/-- C7 counterexample: a queue in which every record is memory-starved
(both processes hold no pages at all) is not reported as stalled — the
round-robin loop dispatches and runs both records to completion
(`execution_time = 5` each), never skipping or re-enqueuing them unrun;
no `SchedulingStalled` report exists anywhere in the code. -/
theorem c7_counterexample :
    run_round_robin 2 0 [⟨1, "", 1, 0, 0, 0, 5, none, none, 2, []⟩,
        ⟨2, "", 1, 0, 0, 0, 5, none, none, 2, []⟩]
      = some [⟨1, "", 1, 0, 5, 0, 0, some 0, some 9, 2, []⟩,
          ⟨2, "", 1, 0, 5, 0, 0, some 2, some 10, 2, []⟩] := by
  decide

/-- C7 (amended): the scheduler performs no starvation detection at all:
an entirely memory-starved queue (every record holds no pages) is simply
executed — the loop terminates with every queued record run to completion
(`remaining_time = 0`, consumed burst grown by the whole initial burst),
rather than yielding any stalled report. -/
theorem c7_amended_no_starvation_detection (q c : Nat) (queue : List Process)
    (hq : 1 ≤ q) (_hstarved : ∀ p ∈ queue, p.allocated_pages = []) :
    ∃ res, run_round_robin q c queue = some res ∧
      (res.map procKey).Perm (queue.map finishKey) := by
  have hsome := rrFuel_isSome q hq (sumRemaining queue + queue.length) c queue []
    (Nat.le_refl _)
  obtain ⟨res, hres⟩ := Option.isSome_iff_exists.mp hsome
  refine ⟨res, hres, ?_⟩
  have hperm := rrFuel_keys q _ c queue [] res hres
  simpa using hperm

theorem c7_amended_no_starvation_detection_witness :
    ((1 : Nat) ≤ 2 ∧
      (∀ p ∈ [(⟨1, "", 1, 0, 0, 0, 5, none, none, 2, []⟩ : Process)],
        p.allocated_pages = ([] : List Nat))) ∧
    ∃ res, run_round_robin 2 0 [⟨1, "", 1, 0, 0, 0, 5, none, none, 2, []⟩] = some res ∧
      (res.map procKey).Perm
        ([(⟨1, "", 1, 0, 0, 0, 5, none, none, 2, []⟩ : Process)].map finishKey) :=
  ⟨⟨by decide, by decide⟩,
    c7_amended_no_starvation_detection 2 0
      [⟨1, "", 1, 0, 0, 0, 5, none, none, 2, []⟩] (by decide) (by decide)⟩

/-! ### Claim C9: metrics formulas -/

/-- C9: For a process admitted at `t0`, first dispatched at `t1`, completed
at `t2`, with consumed burst `C`, `print_metrics` reports exactly
`turnaround = t2 - t0`, `waiting = (t2 - t0) - C` and
`response = t1 - t0`; and the round-robin dispatch step records
`response_time` only at the very first dispatch — it is set to the current
clock when absent and left untouched once present (set at most once). -/
theorem c9_metrics_formulas (p : Process) (t0 t1 t2 C : Nat)
    (h0 : p.start_time = t0) (h1 : p.response_time = some t1)
    (h2 : p.completion_time = some t2) (hC : p.execution_time = C) :
    print_metrics p = ((t2 : Int) - (t0 : Int),
        ((t2 : Int) - (t0 : Int)) - (C : Int), (t1 : Int) - (t0 : Int)) ∧
    (∀ (q c : Nat) (p' : Process) (t : Nat), p'.response_time = some t →
        (rrStep q c p').1.response_time = some t) ∧
    (∀ (q c : Nat) (p' : Process), p'.response_time = none →
        (rrStep q c p').1.response_time = some c) := by
  refine ⟨?_, fun q c p' t h => rrStep_response_some q c p' t h,
    fun q c p' h => rrStep_response_none q c p' h⟩
  simp [print_metrics, h0, h1, h2, hC]

theorem c9_metrics_formulas_witness :
    ((⟨4, "", 1, 10, 5, 0, 0, some 12, some 20, 2, []⟩ : Process).start_time = 10 ∧
      (⟨4, "", 1, 10, 5, 0, 0, some 12, some 20, 2, []⟩ : Process).response_time = some 12 ∧
      (⟨4, "", 1, 10, 5, 0, 0, some 12, some 20, 2, []⟩ : Process).completion_time = some 20 ∧
      (⟨4, "", 1, 10, 5, 0, 0, some 12, some 20, 2, []⟩ : Process).execution_time = 5) ∧
    print_metrics ⟨4, "", 1, 10, 5, 0, 0, some 12, some 20, 2, []⟩
      = ((20 : Int) - (10 : Int), ((20 : Int) - (10 : Int)) - (5 : Int),
          (12 : Int) - (10 : Int)) :=
  ⟨⟨by decide, by decide, by decide, by decide⟩,
    (c9_metrics_formulas ⟨4, "", 1, 10, 5, 0, 0, some 12, some 20, 2, []⟩ 10 12 20 5
      (by decide) (by decide) (by decide) (by decide)).1⟩

/-! ### Producer/consumer invariant -/

theorem phaseBit_le_one (ph t : Nat) : phaseBit ph t ≤ 1 := by
  unfold phaseBit
  split <;> omega

theorem phaseBit_three_le_one (ph : Nat) : phaseBit ph 3 ≤ phaseBit ph 1 := by
  unfold phaseBit
  split <;> split <;> omega

theorem pcInv_init (count bufferSize : Nat) :
    PCInv count bufferSize (pcInit bufferSize) := by
  unfold PCInv pcInit phaseBit
  norm_num

theorem pcInv_step (count bufferSize : Nat) (s s' : PCState)
    (hstep : PCStep count s s') (hinv : PCInv count bufferSize s) :
    PCInv count bufferSize s' := by
  obtain ⟨h1, h2, h3, h4, h5, h6, hE, hF, hM, hB, hC⟩ := hinv
  simp only [phaseBit] at hE hF hM hB hC
  cases hstep with
  | producerWait h hph he =>
    rw [hph] at hE hM hB
    norm_num at hE hM hB
    unfold PCInv
    dsimp only
    simp only [phaseBit]
    refine ⟨by norm_num, h2, h3, h4, ?_, h6, ?_, hF, ?_, ?_, hC⟩
    · intro hx; omega
    · norm_num; omega
    · norm_num; omega
    · norm_num; exact hB
  | producerLock h hph hm =>
    rw [hph] at hE hM hB
    norm_num at hE hM hB
    unfold PCInv
    dsimp only
    simp only [phaseBit]
    refine ⟨by norm_num, h2, h3, h4, ?_, h6, ?_, hF, ?_, ?_, hC⟩
    · intro hx; omega
    · norm_num; omega
    · norm_num; omega
    · norm_num; exact hB
  | producerAppend h hph =>
    rw [hph] at hE hM hB
    norm_num at hE hM hB
    have hb3 : (if 3 ≤ s.cPhase then 1 else 0) ≤ (if 1 ≤ s.cPhase then 1 else 0) := by
      split <;> split <;> omega
    have hR : s.cIdx + (if 3 ≤ s.cPhase then 1 else 0) ≤ s.pIdx := by omega
    unfold PCInv
    dsimp only
    simp only [phaseBit]
    refine ⟨by norm_num, h2, h3, h4, ?_, h6, ?_, hF, ?_, ?_, hC⟩
    · intro hx; omega
    · norm_num; omega
    · norm_num; omega
    · norm_num
      rw [hB, List.range_succ, List.drop_append_of_le_length (by simpa using hR)]
  | producerUnlock h hph =>
    rw [hph] at hE hM hB
    norm_num at hE hM hB
    unfold PCInv
    dsimp only
    simp only [phaseBit]
    refine ⟨by norm_num, h2, h3, h4, ?_, h6, ?_, hF, ?_, ?_, hC⟩
    · intro hx; omega
    · norm_num; omega
    · norm_num; omega
    · norm_num; exact hB
  | producerSignal h hph =>
    rw [hph] at hE hM hB
    norm_num at hE hM hB
    unfold PCInv
    dsimp only
    simp only [phaseBit]
    refine ⟨by norm_num, h2, ?_, h4, ?_, h6, ?_, ?_, ?_, ?_, hC⟩
    · omega
    · intro hx; trivial
    · norm_num; omega
    · omega
    · norm_num; omega
    · norm_num; exact hB
  | consumerWait h hph hf =>
    rw [hph] at hF hM hB hC
    norm_num at hF hM hB hC
    unfold PCInv
    dsimp only
    simp only [phaseBit]
    refine ⟨h1, by norm_num, h3, h4, h5, ?_, hE, ?_, ?_, ?_, ?_⟩
    · intro hx; omega
    · norm_num; omega
    · norm_num; omega
    · norm_num; exact hB
    · norm_num; exact hC
  | consumerLock h hph hm =>
    rw [hph] at hF hM hB hC
    norm_num at hF hM hB hC
    unfold PCInv
    dsimp only
    simp only [phaseBit]
    refine ⟨h1, by norm_num, h3, h4, h5, ?_, hE, ?_, ?_, ?_, ?_⟩
    · intro hx; omega
    · norm_num; omega
    · norm_num
      have hP : (if s.pPhase = 2 ∨ s.pPhase = 3 then 1 else 0) = 0 := by omega
      by_cases hpp : s.pPhase = 2 ∨ s.pPhase = 3
      · rw [if_pos hpp] at hP
        omega
      · push_neg at hpp
        exact ⟨by omega, hpp.1, hpp.2⟩
    · norm_num; exact hB
    · norm_num; exact hC
  | consumerPop h hph =>
    rw [hph] at hF hM hB hC
    norm_num at hF hM hB hC
    have hlen : 0 < s.buffer.length := by
      rw [hB, List.length_drop, List.length_range]
      omega
    have hne : s.buffer ≠ [] := List.ne_nil_of_length_pos hlen
    have hne' : s.buffer.isEmpty = false := by
      cases hbuf : s.buffer with
      | nil => exact absurd hbuf hne
      | cons a t => rfl
    rw [if_neg (by simp [hne'])]
    have hhead : s.buffer.head?.getD 0 = s.cIdx := by
      rw [hB, List.head?_drop, List.getElem?_range (by omega)]
      rfl
    unfold PCInv
    dsimp only
    simp only [phaseBit]
    refine ⟨h1, by norm_num, h3, h4, h5, ?_, hE, ?_, ?_, ?_, ?_⟩
    · intro hx; omega
    · norm_num; omega
    · norm_num; omega
    · norm_num
      rw [hB, List.tail_drop]
    · norm_num
      rw [hC, hhead, List.range_succ]
  | consumerUnlock h hph =>
    rw [hph] at hF hM hB hC
    norm_num at hF hM hB hC
    unfold PCInv
    dsimp only
    simp only [phaseBit]
    refine ⟨h1, by norm_num, h3, h4, h5, ?_, hE, ?_, ?_, ?_, ?_⟩
    · intro hx; omega
    · norm_num; omega
    · norm_num
      obtain ⟨hm0, hp2, hp3⟩ := hM
      rw [if_neg (not_or.mpr ⟨hp2, hp3⟩)]
      omega
    · norm_num; exact hB
    · norm_num; exact hC
  | consumerSignal h hph =>
    rw [hph] at hF hM hB hC
    norm_num at hF hM hB hC
    unfold PCInv
    dsimp only
    simp only [phaseBit]
    refine ⟨h1, by norm_num, h3, ?_, h5, ?_, ?_, ?_, ?_, ?_, ?_⟩
    · omega
    · intro hx; trivial
    · omega
    · norm_num; omega
    · norm_num; omega
    · norm_num; exact hB
    · norm_num; exact hC

theorem pcInv_reach (count bufferSize : Nat) (s : PCState)
    (h : PCReach count bufferSize s) : PCInv count bufferSize s := by
  induction h with
  | refl => exact pcInv_init count bufferSize
  | tail _ hbc ih => exact pcInv_step count bufferSize _ _ hbc ih

/-! ### Claim C8: bounded-buffer safety and exactly-once delivery -/

/-- C8: For every interleaving of one producer emitting `count` items and
one consumer consuming `count` items through the semaphore-guarded buffer
of capacity `bufferSize` (5 in the code), every reachable state satisfies:
the buffer length stays between 0 and `bufferSize`; when the producer is
about to append (it holds an `empty_slots` permit and the mutex) the buffer
is strictly below capacity, so an item is never appended to a full buffer;
when the consumer is about to remove (it holds a `full_slots` permit and
the mutex) the buffer is non-empty, so an item is never removed from an
empty buffer; and once both threads finish, every one of the `count` items
has been consumed exactly once, in production order. -/
theorem c8_bounded_buffer_exactly_once (count bufferSize : Nat) (s : PCState)
    (h : PCReach count bufferSize s) :
    s.buffer.length ≤ bufferSize ∧
    (s.pPhase = 2 → s.buffer.length < bufferSize) ∧
    (s.cPhase = 2 → s.buffer ≠ []) ∧
    (s.pIdx = count → s.cIdx = count →
      s.consumed = List.range count ∧ s.buffer = []) := by
  obtain ⟨h1, h2, h3, h4, h5, h6, hE, hF, hM, hB, hC⟩ := pcInv_reach count bufferSize s h
  simp only [phaseBit] at hE hF hM hB hC
  have hb3p : (if 3 ≤ s.pPhase then 1 else 0) ≤ (if 1 ≤ s.pPhase then 1 else 0) := by
    split <;> split <;> omega
  have hb3c : (if 3 ≤ s.cPhase then 1 else 0) ≤ (if 1 ≤ s.cPhase then 1 else 0) := by
    split <;> split <;> omega
  have hlen : s.buffer.length
      = (s.pIdx + if 3 ≤ s.pPhase then 1 else 0)
        - (s.cIdx + if 3 ≤ s.cPhase then 1 else 0) := by
    rw [hB, List.length_drop, List.length_range]
  have hRA : s.cIdx + (if 3 ≤ s.cPhase then 1 else 0)
      ≤ s.pIdx + (if 3 ≤ s.pPhase then 1 else 0) := by omega
  refine ⟨by omega, ?_, ?_, ?_⟩
  · intro hp2
    rw [hp2] at hE hB
    norm_num at hE hB
    rw [hlen, hp2]
    norm_num
    omega
  · intro hc2
    rw [hc2] at hF hB
    norm_num at hF hB
    have : 0 < s.buffer.length := by
      rw [hlen, hc2]
      norm_num
      omega
    exact List.ne_nil_of_length_pos this
  · intro hp hc
    rw [h5 hp] at hB
    rw [h6 hc] at hB hC
    rw [hp, hc] at hB
    rw [hc] at hC
    norm_num at hB hC ⊢
    refine ⟨hC, ?_⟩
    rw [hB, List.drop_eq_nil_iff]
    simp

theorem c8_bounded_buffer_exactly_once_witness :
    PCReach 3 2 (pcInit 2) ∧
    ((pcInit 2).buffer.length ≤ 2 ∧
      ((pcInit 2).pPhase = 2 → (pcInit 2).buffer.length < 2)) :=
  ⟨Relation.ReflTransGen.refl,
    ⟨(c8_bounded_buffer_exactly_once 3 2 (pcInit 2) Relation.ReflTransGen.refl).1,
      (c8_bounded_buffer_exactly_once 3 2 (pcInit 2) Relation.ReflTransGen.refl).2.1⟩⟩

/-! ### Heap index and slot lemmas -/

theorem parentIdx_lt (i : Nat) (hi : 0 < i) : parentIdx i < i := by
  unfold parentIdx
  omega

theorem parentIdx_le (i : Nat) : parentIdx i ≤ i := by
  unfold parentIdx
  omega

theorem child_ge_of_parentIdx (c pos : Nat) (hc : 0 < c) (hp : parentIdx c = pos) :
    2 * pos + 1 ≤ c ∧ c ≤ 2 * pos + 2 := by
  unfold parentIdx at hp
  omega

theorem getD_set_ne (l : List Process) (i j : Nat) (v : Process) (hne : j ≠ i) :
    (l.set i v).getD j default = l.getD j default := by
  rw [List.getD_eq_getElem?_getD, List.getD_eq_getElem?_getD,
    List.getElem?_set_ne (by omega)]

theorem getD_set_self (l : List Process) (i : Nat) (v : Process) (hi : i < l.length) :
    (l.set i v).getD i default = v := by
  rw [List.getD_eq_getElem?_getD, List.getElem?_set_self hi]
  rfl

theorem heapVal_set_ne (l : List Process) (i j : Nat) (v : Process) (hne : j ≠ i) :
    heapVal (l.set i v) j = heapVal l j := by
  unfold heapVal
  rw [getD_set_ne l i j v hne]

theorem heapVal_set_self (l : List Process) (i : Nat) (v : Process) (hi : i < l.length) :
    heapVal (l.set i v) i = v.priority := by
  unfold heapVal
  rw [getD_set_self l i v hi]

theorem heapVal_append_lt (l l2 : List Process) (i : Nat) (hi : i < l.length) :
    heapVal (l ++ l2) i = heapVal l i := by
  unfold heapVal
  rw [List.getD_eq_getElem?_getD, List.getD_eq_getElem?_getD,
    List.getElem?_append_left hi]

theorem set_getD_self (l : List Process) (i : Nat) :
    l.set i (l.getD i default) = l := by
  induction l generalizing i with
  | nil => rfl
  | cons a t ih =>
    cases i with
    | zero => rfl
    | succ i =>
      show a :: t.set i (t.getD i default) = a :: t
      rw [ih]

theorem heapVal_set_getD (l : List Process) (i k : Nat) (hi : i < l.length) :
    heapVal (l.set i (l.getD k default)) i = heapVal l k := by
  unfold heapVal
  rw [getD_set_self l i _ hi]

theorem set_append_last (l : List Process) (x v : Process) :
    (l ++ [x]).set l.length v = l ++ [v] := by
  induction l with
  | nil => rfl
  | cons a t ih => simp [List.set, ih]

/-- Placing `item` at the hole `pos` yields a valid heap, provided the rest
of the array is heap-ordered away from the hole, the hole's children are at
most `item`, and `item` is at most the hole's parent. -/
theorem set_item_heapInv (h : List Process) (pos : Nat) (item : Process)
    (hpos : pos < h.length)
    (ha : ∀ i, 0 < i → i < h.length → i ≠ pos → heapVal h i ≤ heapVal h (parentIdx i))
    (hb : ∀ c, 0 < c → c < h.length → parentIdx c = pos → heapVal h c ≤ item.priority)
    (hup : 0 < pos → item.priority ≤ heapVal h (parentIdx pos)) :
    HeapInv (h.set pos item) := by
  intro i h0 hlen
  rw [List.length_set] at hlen
  by_cases hip : i = pos
  · subst hip
    rw [heapVal_set_self _ _ _ hpos,
      heapVal_set_ne _ _ _ _ (by have := parentIdx_lt i h0; omega)]
    exact hup h0
  · rw [heapVal_set_ne _ _ _ _ hip]
    by_cases hpi : parentIdx i = pos
    · rw [hpi, heapVal_set_self _ _ _ hpos]
      exact hb i h0 hlen hpi
    · rw [heapVal_set_ne _ _ _ _ hpi]
      exact ha i h0 hlen hip

/-- Correctness of the `_siftdown` bubble-up loop (with `startpos = 0`, as
every call site uses): if the array is heap-ordered except at the hole
`pos`, the hole's children are at most `item`, and the hole's children are
at most the hole's parent, then the loop produces a valid heap. -/
theorem siftdownLoop_inv (item : Process) :
    ∀ (n pos : Nat) (h : List Process), pos ≤ n → pos < h.length →
      (∀ i, 0 < i → i < h.length → i ≠ pos → heapVal h i ≤ heapVal h (parentIdx i)) →
      (∀ c, 0 < c → c < h.length → parentIdx c = pos → heapVal h c ≤ item.priority) →
      (∀ c, 0 < c → c < h.length → parentIdx c = pos →
        heapVal h c ≤ heapVal h (parentIdx pos)) →
      HeapInv (siftdownLoop h 0 pos item) := by
  intro n
  induction n with
  | zero =>
    intro pos h hpn hpos ha hb _hc
    have hp0 : pos = 0 := by omega
    subst hp0
    rw [siftdownLoop]
    simp only [Nat.lt_irrefl, if_false]
    exact set_item_heapInv h 0 item hpos ha hb (by omega)
  | succ n ih =>
    intro pos h hpn hpos ha hb hc
    rw [siftdownLoop]
    by_cases hsp : 0 < pos
    · rw [if_pos hsp]
      by_cases hlt : procLt item (h.getD (parentIdx pos) default)
      · rw [if_pos hlt]
        have hpplt : parentIdx pos < pos := parentIdx_lt pos hsp
        have hpplen : parentIdx pos < h.length := by omega
        have hppval : heapVal h (parentIdx pos) < item.priority := hlt
        apply ih (parentIdx pos) _ (by omega) (by rw [List.length_set]; omega)
        · -- (a) for the shifted array, hole now at parentIdx pos
          intro i h0 hlen hne
          rw [List.length_set] at hlen
          by_cases hipos : i = pos
          · subst hipos
            rw [heapVal_set_getD _ _ _ hpos,
              heapVal_set_ne _ _ _ _ (by omega)]
          · rw [heapVal_set_ne _ _ _ _ hipos]
            by_cases hpi : parentIdx i = pos
            · rw [hpi, heapVal_set_getD _ _ _ hpos]
              exact hc i h0 hlen hpi
            · rw [heapVal_set_ne _ _ _ _ hpi]
              exact ha i h0 hlen hipos
        · -- (b): children of the new hole are at most item
          intro c h0 hlen hpc
          rw [List.length_set] at hlen
          by_cases hcpos : c = pos
          · subst hcpos
            rw [heapVal_set_getD _ _ _ hpos]
            omega
          · rw [heapVal_set_ne _ _ _ _ hcpos]
            have h1 : heapVal h c ≤ heapVal h (parentIdx c) := ha c h0 hlen hcpos
            rw [hpc] at h1
            omega
        · -- (c): children of the new hole are at most its parent
          intro c h0 hlen hpc
          rw [List.length_set] at hlen
          have hppp_ne : parentIdx (parentIdx pos) ≠ pos := by
            have := parentIdx_le (parentIdx pos)
            omega
          rw [heapVal_set_ne _ _ _ _ hppp_ne]
          by_cases hppz : 0 < parentIdx pos
          · have h2 : heapVal h (parentIdx pos) ≤ heapVal h (parentIdx (parentIdx pos)) :=
              ha (parentIdx pos) hppz hpplen (by omega)
            by_cases hcpos : c = pos
            · subst hcpos
              rw [heapVal_set_getD _ _ _ hpos]
              omega
            · rw [heapVal_set_ne _ _ _ _ hcpos]
              have h1 : heapVal h c ≤ heapVal h (parentIdx c) := ha c h0 hlen hcpos
              rw [hpc] at h1
              omega
          · -- parentIdx pos = 0, so its parent is itself (slot 0)
            have hppz' : parentIdx pos = 0 := by omega
            have hpp0 : parentIdx (parentIdx pos) = parentIdx pos := by
              rw [hppz']
              rfl
            rw [hpp0]
            by_cases hcpos : c = pos
            · subst hcpos
              rw [heapVal_set_getD _ _ _ hpos]
            · rw [heapVal_set_ne _ _ _ _ hcpos]
              have h1 : heapVal h c ≤ heapVal h (parentIdx c) := ha c h0 hlen hcpos
              rw [hpc] at h1
              exact h1
      · rw [if_neg hlt]
        apply set_item_heapInv h pos item hpos ha hb
        intro _
        unfold procLt at hlt
        unfold heapVal
        omega
    · rw [if_neg hsp]
      exact set_item_heapInv h pos item hpos ha hb (by omega)

/-- `heappush` preserves the heap invariant. -/
theorem heappush_heapInv (h : List Process) (x : Process) (hinv : HeapInv h) :
    HeapInv (heappush h x) := by
  unfold heappush
  apply siftdownLoop_inv x h.length h.length (h ++ [x]) (Nat.le_refl _)
  · simp
  · intro i h0 hlen hne
    rw [List.length_append, List.length_singleton] at hlen
    have hi : i < h.length := by omega
    have hpi : parentIdx i < h.length := by
      have := parentIdx_lt i h0
      omega
    rw [heapVal_append_lt _ _ _ hi, heapVal_append_lt _ _ _ hpi]
    exact hinv i h0 hi
  · intro c h0 hlen hpc
    unfold parentIdx at hpc
    rw [List.length_append, List.length_singleton] at hlen
    omega
  · intro c h0 hlen hpc
    unfold parentIdx at hpc
    rw [List.length_append, List.length_singleton] at hlen
    omega

/-- The chosen child is a child of `pos` and bounded by `endpos`. -/
theorem siftupChild_spec (heap : List Process) (endpos pos : Nat)
    (hchild : 2 * pos + 1 < endpos) :
    parentIdx (siftupChild heap endpos pos) = pos ∧
      0 < siftupChild heap endpos pos ∧
      pos < siftupChild heap endpos pos ∧
      siftupChild heap endpos pos < endpos := by
  unfold siftupChild parentIdx
  split <;> omega

/-- The chosen child's slot value dominates the other child's. -/
theorem siftupChild_max (heap : List Process) (endpos pos : Nat)
    (o : Nat) (ho : 0 < o) (holt : o < endpos) (hpo : parentIdx o = pos)
    (hne : o ≠ siftupChild heap endpos pos) :
    heapVal heap o ≤ heapVal heap (siftupChild heap endpos pos) := by
  obtain ⟨hol, hor⟩ := child_ge_of_parentIdx o pos ho hpo
  unfold siftupChild
  split
  case isTrue hcond =>
    have ho' : o = 2 * pos + 1 := by
      unfold siftupChild at hne
      rw [if_pos hcond] at hne
      omega
    subst ho'
    have hcc := hcond.2
    unfold procLt at hcc
    unfold heapVal
    omega
  case isFalse hcond =>
    have ho' : o = 2 * pos + 2 := by
      unfold siftupChild at hne
      rw [if_neg hcond] at hne
      omega
    subst ho'
    rw [not_and_or, not_not] at hcond
    rcases hcond with hlen | hlt
    · omega
    · unfold procLt at hlt
      unfold heapVal
      omega

/-- Correctness of the `_siftup` descent loop: starting from an array that
is heap-ordered away from the hole `pos` (edges into the hole exempt), the
loop ends with the hole at a child-less position, the array still
heap-ordered away from the hole. -/
theorem siftupLoop_inv :
    ∀ (n pos : Nat) (h : List Process) (endpos : Nat),
      endpos - pos ≤ n → endpos = h.length → pos < endpos →
      (∀ i, 0 < i → i < endpos → i ≠ pos → parentIdx i ≠ pos →
        heapVal h i ≤ heapVal h (parentIdx i)) →
      (0 < pos → ∀ c, 0 < c → c < endpos → parentIdx c = pos →
        heapVal h c ≤ heapVal h (parentIdx pos)) →
      (siftupLoop h endpos pos).2 < endpos ∧
      (siftupLoop h endpos pos).1.length = h.length ∧
      endpos ≤ 2 * (siftupLoop h endpos pos).2 + 1 ∧
      (∀ i, 0 < i → i < endpos → i ≠ (siftupLoop h endpos pos).2 →
        heapVal (siftupLoop h endpos pos).1 i
          ≤ heapVal (siftupLoop h endpos pos).1 (parentIdx i)) := by
  intro n
  induction n with
  | zero =>
    intro pos h endpos hfuel hend hpos hA hB
    rw [siftupLoop]
    rw [if_neg (by omega)]
    refine ⟨hpos, rfl, by omega, ?_⟩
    intro i h0 hlen hne
    by_cases hpi : parentIdx i = pos
    · exfalso
      have := (child_ge_of_parentIdx i pos h0 hpi).1
      omega
    · exact hA i h0 hlen hne hpi
  | succ n ih =>
    intro pos h endpos hfuel hend hpos hA hB
    rw [siftupLoop]
    by_cases hchild : 2 * pos + 1 < endpos
    · rw [if_pos hchild]
      obtain ⟨hcp, hc0, hclt, hce⟩ := siftupChild_spec h endpos pos hchild
      have hclen : siftupChild h endpos pos < h.length := by omega
      have hposlen : pos < h.length := by omega
      have hA' : ∀ i, 0 < i → i < endpos → i ≠ siftupChild h endpos pos →
          parentIdx i ≠ siftupChild h endpos pos →
          heapVal (h.set pos (h.getD (siftupChild h endpos pos) default)) i
            ≤ heapVal (h.set pos (h.getD (siftupChild h endpos pos) default))
                (parentIdx i) := by
        intro i h0 hlen hne hpi
        by_cases hipos : i = pos
        · rw [hipos]
          have hp0 : 0 < pos := hipos ▸ h0
          have hppne : parentIdx pos ≠ pos := by
            have := parentIdx_lt pos hp0
            omega
          rw [heapVal_set_getD _ _ _ hposlen, heapVal_set_ne _ _ _ _ hppne]
          exact hB hp0 (siftupChild h endpos pos) hc0 hce hcp
        · rw [heapVal_set_ne _ _ _ _ hipos]
          by_cases hpipos : parentIdx i = pos
          · rw [hpipos, heapVal_set_getD _ _ _ hposlen]
            exact siftupChild_max h endpos pos i h0 hlen hpipos hne
          · rw [heapVal_set_ne _ _ _ _ hpipos]
            exact hA i h0 hlen hipos hpipos
      have hB' : 0 < siftupChild h endpos pos → ∀ gc, 0 < gc → gc < endpos →
          parentIdx gc = siftupChild h endpos pos →
          heapVal (h.set pos (h.getD (siftupChild h endpos pos) default)) gc
            ≤ heapVal (h.set pos (h.getD (siftupChild h endpos pos) default))
                (parentIdx (siftupChild h endpos pos)) := by
        intro _ gc hg0 hglt hgp
        have hgge := (child_ge_of_parentIdx gc _ hg0 hgp).1
        have hgne_pos : gc ≠ pos := by omega
        rw [hcp, heapVal_set_getD _ _ _ hposlen,
          heapVal_set_ne _ _ _ _ hgne_pos]
        have hgp_ne_pos : parentIdx gc ≠ pos := by
          rw [hgp]
          omega
        have hstep := hA gc hg0 hglt hgne_pos hgp_ne_pos
        rw [hgp] at hstep
        exact hstep
      have H := ih (siftupChild h endpos pos)
        (h.set pos (h.getD (siftupChild h endpos pos) default)) endpos
        (by omega) (by rw [List.length_set]; exact hend) hce hA' hB'
      refine ⟨H.1, ?_, H.2.2.1, H.2.2.2⟩
      rw [H.2.1, List.length_set]
    · rw [if_neg hchild]
      refine ⟨hpos, rfl, by omega, ?_⟩
      intro i h0 hlen hne
      by_cases hpi : parentIdx i = pos
      · exfalso
        have := (child_ge_of_parentIdx i pos h0 hpi).1
        omega
      · exact hA i h0 hlen hne hpi

theorem heapVal_dropLast (l : List Process) (i : Nat) (hi : i < l.dropLast.length) :
    heapVal l.dropLast i = heapVal l i := by
  unfold heapVal
  rw [List.getD_eq_getElem?_getD, List.getD_eq_getElem?_getD, List.getElem?_dropLast,
    if_pos (by rw [List.length_dropLast] at hi; omega)]

/-- `heappop` preserves the heap invariant. -/
theorem heappop_heapInv (h : List Process) (r : Process) (h2 : List Process)
    (hinv : HeapInv h) (hpop : heappop h = some (r, h2)) : HeapInv h2 := by
  unfold heappop at hpop
  cases hl : h.getLast? with
  | none =>
    rw [hl] at hpop
    simp at hpop
  | some lastelt =>
    rw [hl] at hpop
    dsimp only at hpop
    by_cases hemp : h.dropLast.isEmpty
    · rw [if_pos hemp] at hpop
      simp only [Option.some.injEq, Prod.mk.injEq] at hpop
      obtain ⟨_, hh2⟩ := hpop
      subst hh2
      intro i h0 hlen
      simp at hlen
    · rw [if_neg hemp] at hpop
      simp only [Option.some.injEq, Prod.mk.injEq] at hpop
      obtain ⟨_, hh2⟩ := hpop
      subst hh2
      have hdlen : 0 < h.dropLast.length := by
        rcases hq : h.dropLast with _ | ⟨a, t⟩
        · rw [hq] at hemp
          simp at hemp
        · simp
      unfold siftup
      have hHlen : (h.dropLast.set 0 lastelt).length = h.dropLast.length := by
        rw [List.length_set]
      show HeapInv (siftdownLoop
        ((siftupLoop (h.dropLast.set 0 lastelt) (h.dropLast.set 0 lastelt).length 0).1.set
          (siftupLoop (h.dropLast.set 0 lastelt) (h.dropLast.set 0 lastelt).length 0).2
          ((h.dropLast.set 0 lastelt).getD 0 default))
        0 (siftupLoop (h.dropLast.set 0 lastelt) (h.dropLast.set 0 lastelt).length 0).2
        ((h.dropLast.set 0 lastelt).getD 0 default))
      have hA0 : ∀ i, 0 < i → i < (h.dropLast.set 0 lastelt).length → i ≠ 0 →
          parentIdx i ≠ 0 →
          heapVal (h.dropLast.set 0 lastelt) i
            ≤ heapVal (h.dropLast.set 0 lastelt) (parentIdx i) := by
        intro i hi0 hilen hne hpne
        rw [hHlen] at hilen
        have hpi_lt : parentIdx i < i := parentIdx_lt i hi0
        rw [heapVal_set_ne _ _ _ _ hne, heapVal_set_ne _ _ _ _ hpne,
          heapVal_dropLast _ _ hilen, heapVal_dropLast _ _ (by omega)]
        have hih : i < h.length := by
          rw [List.length_dropLast] at hilen
          omega
        exact hinv i hi0 hih
      have H := siftupLoop_inv (h.dropLast.set 0 lastelt).length 0
        (h.dropLast.set 0 lastelt) (h.dropLast.set 0 lastelt).length
        (Nat.le_refl _) rfl (by rw [hHlen]; exact hdlen) hA0 (by omega)
      obtain ⟨hr2lt, hr2len, hnochild, hA4⟩ := H
      rw [hHlen] at hr2lt hr2len hnochild hA4
      rw [hHlen]
      apply siftdownLoop_inv _ (siftupLoop (h.dropLast.set 0 lastelt)
          h.dropLast.length 0).2 _ _ (Nat.le_refl _)
      · rw [List.length_set, hr2len]
        exact hr2lt
      · intro i hi0 hilen hne
        rw [List.length_set, hr2len] at hilen
        have hpne : parentIdx i
            ≠ (siftupLoop (h.dropLast.set 0 lastelt)
                h.dropLast.length 0).2 := by
          intro hcon
          have := (child_ge_of_parentIdx i _ hi0 hcon).1
          omega
        rw [heapVal_set_ne _ _ _ _ hne, heapVal_set_ne _ _ _ _ hpne]
        exact hA4 i hi0 hilen hne
      · intro c hc0 hclen hpc
        rw [List.length_set, hr2len] at hclen
        have := (child_ge_of_parentIdx c _ hc0 hpc).1
        omega
      · intro c hc0 hclen hpc
        rw [List.length_set, hr2len] at hclen
        have := (child_ge_of_parentIdx c _ hc0 hpc).1
        omega

/-! ### Multiset preservation of the heap operations -/

theorem cons_set_mset (l : List Process) (j : Nat) (hj : j < l.length) (b : Process) :
    (l.getD j default) ::ₘ ((l.set j b : List Process) : Multiset Process)
      = b ::ₘ (l : Multiset Process) := by
  induction l generalizing j with
  | nil => simp at hj
  | cons a t ih =>
    cases j with
    | zero =>
      show a ::ₘ ((b :: t : List Process) : Multiset Process)
        = b ::ₘ ((a :: t : List Process) : Multiset Process)
      rw [← Multiset.cons_coe, ← Multiset.cons_coe, Multiset.cons_swap]
    | succ j =>
      have hj2 : j < t.length := by simpa using hj
      show (t.getD j default) ::ₘ ((a :: t.set j b : List Process) : Multiset Process)
        = b ::ₘ ((a :: t : List Process) : Multiset Process)
      rw [← Multiset.cons_coe, ← Multiset.cons_coe, Multiset.cons_swap, ih j hj2,
        Multiset.cons_swap]

theorem set_set_mset (l : List Process) (i j : Nat) (hne : i ≠ j)
    (hi : i < l.length) (hj : j < l.length) (b : Process) :
    (((l.set i (l.getD j default)).set j b : List Process) : Multiset Process)
      = ((l.set i b : List Process) : Multiset Process) := by
  have e1 := cons_set_mset (l.set i (l.getD j default)) j
    (by rw [List.length_set]; exact hj) b
  rw [getD_set_ne l i j _ (by omega)] at e1
  have e2 := cons_set_mset l i hi (l.getD j default)
  have e3 := cons_set_mset l i hi b
  have key : (l.getD i default) ::ₘ (l.getD j default) ::ₘ
      (((l.set i (l.getD j default)).set j b : List Process) : Multiset Process)
      = (l.getD i default) ::ₘ (l.getD j default) ::ₘ
        ((l.set i b : List Process) : Multiset Process) := by
    calc (l.getD i default) ::ₘ (l.getD j default) ::ₘ
        (((l.set i (l.getD j default)).set j b : List Process) : Multiset Process)
        = (l.getD i default) ::ₘ b ::ₘ
            ((l.set i (l.getD j default) : List Process) : Multiset Process) := by rw [e1]
      _ = b ::ₘ (l.getD i default) ::ₘ
            ((l.set i (l.getD j default) : List Process) : Multiset Process) := by
          rw [Multiset.cons_swap]
      _ = b ::ₘ (l.getD j default) ::ₘ (l : Multiset Process) := by rw [e2]
      _ = (l.getD j default) ::ₘ b ::ₘ (l : Multiset Process) := by rw [Multiset.cons_swap]
      _ = (l.getD j default) ::ₘ (l.getD i default) ::ₘ
            ((l.set i b : List Process) : Multiset Process) := by rw [e3]
      _ = (l.getD i default) ::ₘ (l.getD j default) ::ₘ
            ((l.set i b : List Process) : Multiset Process) := by rw [Multiset.cons_swap]
  exact (Multiset.cons_inj_right _).mp ((Multiset.cons_inj_right _).mp key)

theorem siftdownLoop_mset (item : Process) :
    ∀ (n pos : Nat) (h : List Process), pos ≤ n → pos < h.length →
      ((siftdownLoop h 0 pos item : List Process) : Multiset Process)
        = ((h.set pos item : List Process) : Multiset Process) := by
  intro n
  induction n with
  | zero =>
    intro pos h hpn hpos
    have hp0 : pos = 0 := by omega
    subst hp0
    rw [siftdownLoop]
    simp
  | succ n ih =>
    intro pos h hpn hpos
    rw [siftdownLoop]
    by_cases hsp : 0 < pos
    · rw [if_pos hsp]
      by_cases hlt : procLt item (h.getD (parentIdx pos) default)
      · rw [if_pos hlt]
        have hpp := parentIdx_lt pos hsp
        rw [ih (parentIdx pos) (h.set pos (h.getD (parentIdx pos) default))
          (by omega) (by rw [List.length_set]; omega)]
        exact set_set_mset h pos (parentIdx pos) (by omega) hpos (by omega) item
      · rw [if_neg hlt]
    · rw [if_neg hsp]

theorem siftupLoop_bounds :
    ∀ (n pos : Nat) (h : List Process) (endpos : Nat), endpos - pos ≤ n →
      pos < endpos →
      (siftupLoop h endpos pos).2 < endpos ∧
        (siftupLoop h endpos pos).1.length = h.length := by
  intro n
  induction n with
  | zero =>
    intro pos h endpos hfuel hpos
    rw [siftupLoop, if_neg (by omega)]
    exact ⟨hpos, rfl⟩
  | succ n ih =>
    intro pos h endpos hfuel hpos
    rw [siftupLoop]
    by_cases hchild : 2 * pos + 1 < endpos
    · rw [if_pos hchild]
      obtain ⟨_, _, hclt, hce⟩ := siftupChild_spec h endpos pos hchild
      obtain ⟨hb1, hb2⟩ := ih (siftupChild h endpos pos)
        (h.set pos (h.getD (siftupChild h endpos pos) default)) endpos (by omega) hce
      exact ⟨hb1, by rw [hb2, List.length_set]⟩
    · rw [if_neg hchild]
      exact ⟨hpos, rfl⟩

theorem siftupLoop_set_mset (x : Process) :
    ∀ (n pos : Nat) (h : List Process) (endpos : Nat), endpos - pos ≤ n →
      pos < endpos → endpos ≤ h.length →
      (((siftupLoop h endpos pos).1.set (siftupLoop h endpos pos).2 x
          : List Process) : Multiset Process)
        = ((h.set pos x : List Process) : Multiset Process) := by
  intro n
  induction n with
  | zero =>
    intro pos h endpos hfuel hpos hend
    rw [siftupLoop, if_neg (by omega)]
  | succ n ih =>
    intro pos h endpos hfuel hpos hend
    rw [siftupLoop]
    by_cases hchild : 2 * pos + 1 < endpos
    · rw [if_pos hchild]
      obtain ⟨_, _, hclt, hce⟩ := siftupChild_spec h endpos pos hchild
      rw [ih (siftupChild h endpos pos)
        (h.set pos (h.getD (siftupChild h endpos pos) default)) endpos (by omega) hce
        (by rw [List.length_set]; exact hend)]
      exact set_set_mset h pos (siftupChild h endpos pos) (by omega) (by omega)
        (by omega) x
    · rw [if_neg hchild]

theorem heappush_mset (h : List Process) (x : Process) :
    ((heappush h x : List Process) : Multiset Process) = x ::ₘ (h : Multiset Process) := by
  unfold heappush
  rw [siftdownLoop_mset x h.length h.length (h ++ [x]) (Nat.le_refl _) (by simp)]
  rw [set_append_last]
  have hperm : ((h ++ [x] : List Process) : Multiset Process)
      = ((x :: h : List Process) : Multiset Process) :=
    Multiset.coe_eq_coe.mpr (List.perm_append_singleton x h)
  rw [hperm, ← Multiset.cons_coe]

theorem heappop_mset (h : List Process) (r : Process) (h2 : List Process)
    (hpop : heappop h = some (r, h2)) :
    r ::ₘ (h2 : Multiset Process) = (h : Multiset Process) := by
  unfold heappop at hpop
  cases hl : h.getLast? with
  | none =>
    rw [hl] at hpop
    simp at hpop
  | some lastelt =>
    obtain ⟨ys, hys⟩ := List.getLast?_eq_some_iff.mp hl
    have hsplit : h.dropLast ++ [lastelt] = h := by
      rw [hys, List.dropLast_concat]
    rw [hl] at hpop
    dsimp only at hpop
    by_cases hemp : h.dropLast.isEmpty
    · rw [if_pos hemp] at hpop
      simp only [Option.some.injEq, Prod.mk.injEq] at hpop
      obtain ⟨hr, hh2⟩ := hpop
      subst hr
      subst hh2
      have hdrop : h.dropLast = [] := List.isEmpty_iff.mp hemp
      rw [← hsplit, hdrop]
      rfl
    · rw [if_neg hemp] at hpop
      simp only [Option.some.injEq, Prod.mk.injEq] at hpop
      obtain ⟨hr, hh2⟩ := hpop
      subst hh2
      have hdlen : 0 < h.dropLast.length := by
        rcases hq : h.dropLast with _ | ⟨a, t⟩
        · rw [hq] at hemp
          simp at hemp
        · simp
      have hHlen : (h.dropLast.set 0 lastelt).length = h.dropLast.length := by
        rw [List.length_set]
      unfold siftup
      show r ::ₘ ((siftdownLoop
          ((siftupLoop (h.dropLast.set 0 lastelt)
              (h.dropLast.set 0 lastelt).length 0).1.set
            (siftupLoop (h.dropLast.set 0 lastelt)
              (h.dropLast.set 0 lastelt).length 0).2
            ((h.dropLast.set 0 lastelt).getD 0 default))
          0 (siftupLoop (h.dropLast.set 0 lastelt)
              (h.dropLast.set 0 lastelt).length 0).2
          ((h.dropLast.set 0 lastelt).getD 0 default) : List Process) : Multiset Process)
        = (h : Multiset Process)
      obtain ⟨hblt, hblen⟩ := siftupLoop_bounds (h.dropLast.set 0 lastelt).length 0
        (h.dropLast.set 0 lastelt) (h.dropLast.set 0 lastelt).length (Nat.le_refl _)
        (by rw [hHlen]; exact hdlen)
      rw [hHlen] at hblt hblen
      rw [hHlen]
      rw [siftdownLoop_mset ((h.dropLast.set 0 lastelt).getD 0 default)
        (siftupLoop (h.dropLast.set 0 lastelt) h.dropLast.length 0).2
        (siftupLoop (h.dropLast.set 0 lastelt) h.dropLast.length 0).2
        ((siftupLoop (h.dropLast.set 0 lastelt) h.dropLast.length 0).1.set
          (siftupLoop (h.dropLast.set 0 lastelt) h.dropLast.length 0).2
          ((h.dropLast.set 0 lastelt).getD 0 default))
        (Nat.le_refl _) (by rw [List.length_set, hblen]; exact hblt)]
      rw [List.set_set]
      rw [siftupLoop_set_mset ((h.dropLast.set 0 lastelt).getD 0 default)
        h.dropLast.length 0 (h.dropLast.set 0 lastelt)
        h.dropLast.length (Nat.le_refl _) hdlen (by rw [hHlen])]
      rw [set_getD_self]
      have hr2 : r = h.dropLast.getD 0 default := by
        rw [← hr, List.headD_eq_head?_getD, List.head?_eq_getElem?,
          List.getD_eq_getElem?_getD]
      rw [hr2, cons_set_mset h.dropLast 0 hdlen lastelt]
      have hfin : ((lastelt :: h.dropLast : List Process) : Multiset Process)
          = ((h.dropLast ++ [lastelt] : List Process) : Multiset Process) :=
        Multiset.coe_eq_coe.mpr (List.perm_append_singleton lastelt h.dropLast).symm
      rw [Multiset.cons_coe, hfin, hsplit]

/-! ### The heap root dominates -/

theorem heapInv_root_max (h : List Process) (hinv : HeapInv h) :
    ∀ i, i < h.length → heapVal h i ≤ heapVal h 0 := by
  suffices hgen : ∀ (n i : Nat), i ≤ n → i < h.length → heapVal h i ≤ heapVal h 0 from
    fun i hi => hgen i i (Nat.le_refl _) hi
  intro n
  induction n with
  | zero =>
    intro i hin hi
    have hz : i = 0 := by omega
    subst hz
    exact le_refl _
  | succ n ih =>
    intro i hin hi
    rcases Nat.eq_zero_or_pos i with h0 | h0
    · subst h0
      exact le_refl _
    · have hp := parentIdx_lt i h0
      exact le_trans (hinv i h0 hi) (ih (parentIdx i) (by omega) (by omega))

/-- The record returned by `heappop` has maximal priority among the heap's
records. -/
theorem heappop_max (h : List Process) (r : Process) (h2 : List Process)
    (hinv : HeapInv h) (hpop : heappop h = some (r, h2)) :
    ∀ x ∈ h, x.priority ≤ r.priority := by
  have hroot : r = h.getD 0 default := by
    unfold heappop at hpop
    cases hl : h.getLast? with
    | none =>
      rw [hl] at hpop
      simp at hpop
    | some lastelt =>
      obtain ⟨ys, hys⟩ := List.getLast?_eq_some_iff.mp hl
      rw [hl] at hpop
      dsimp only at hpop
      by_cases hemp : h.dropLast.isEmpty
      · rw [if_pos hemp] at hpop
        simp only [Option.some.injEq, Prod.mk.injEq] at hpop
        have hys0 : ys = [] := by
          have hd : h.dropLast = ys := by rw [hys, List.dropLast_concat]
          rw [← hd]
          exact List.isEmpty_iff.mp hemp
        rw [← hpop.1, hys, hys0]
        rfl
      · rw [if_neg hemp] at hpop
        simp only [Option.some.injEq, Prod.mk.injEq] at hpop
        have hdlen : 0 < h.dropLast.length := by
          rcases hq : h.dropLast with _ | ⟨a, t⟩
          · rw [hq] at hemp
            simp at hemp
          · simp
        rw [← hpop.1, List.headD_eq_head?_getD, List.head?_eq_getElem?,
          List.getD_eq_getElem?_getD, List.getElem?_dropLast,
          if_pos (by rw [List.length_dropLast] at hdlen; omega)]
  intro x hx
  obtain ⟨n, hn, hxn⟩ := List.mem_iff_getElem.mp hx
  have hval : heapVal h n = x.priority := by
    unfold heapVal
    rw [List.getD_eq_getElem?_getD, List.getElem?_eq_getElem hn, hxn]
    rfl
  have hroot_val : r.priority = heapVal h 0 := by
    rw [hroot]
    rfl
  rw [hroot_val, ← hval]
  exact heapInv_root_max h hinv n hn

/-! ### Heaps built by admission-order pushes -/

theorem buildHeap_heapInv (ps : List Process) : HeapInv (buildHeap ps) := by
  unfold buildHeap
  suffices hgen : ∀ (qs acc : List Process), HeapInv acc →
      HeapInv (qs.foldl heappush acc) from
    hgen ps [] (by intro i h0 hlen; simp at hlen)
  intro qs
  induction qs with
  | nil =>
    intro acc hacc
    exact hacc
  | cons p t ih =>
    intro acc hacc
    exact ih _ (heappush_heapInv acc p hacc)

theorem buildHeap_mset (ps : List Process) :
    ((buildHeap ps : List Process) : Multiset Process) = (ps : Multiset Process) := by
  unfold buildHeap
  suffices hgen : ∀ (qs acc : List Process),
      ((qs.foldl heappush acc : List Process) : Multiset Process)
        = (acc : Multiset Process) + (qs : Multiset Process) by
    simpa using hgen ps []
  intro qs
  induction qs with
  | nil =>
    intro acc
    simp
  | cons p t ih =>
    intro acc
    rw [List.foldl_cons, ih (heappush acc p), heappush_mset, ← Multiset.cons_coe]
    rw [Multiset.cons_add, Multiset.add_cons]

/-! ### Dispatch order of `run_priority_scheduling` -/

theorem runPriorityFuel_cons (fuel clock : Nat) (heap : List Process) (p : Process)
    (h2 : List Process) (hpop : heappop heap = some (p, h2)) :
    ∃ q, runPrioritySchedulingFuel (fuel + 1) clock heap
        = q :: runPrioritySchedulingFuel fuel (clock + p.remaining_time) h2
      ∧ q.pid = p.pid ∧ q.priority = p.priority := by
  by_cases hrt : p.response_time = none
  · refine ⟨{ p with response_time := some clock
                     execution_time := p.execution_time + p.remaining_time
                     remaining_time := 0
                     completion_time := some (clock + p.remaining_time) },
      ?_, rfl, rfl⟩
    simp only [runPrioritySchedulingFuel, hpop, if_pos hrt]
  · refine ⟨{ p with execution_time := p.execution_time + p.remaining_time
                     remaining_time := 0
                     completion_time := some (clock + p.remaining_time) },
      ?_, rfl, rfl⟩
    simp only [runPrioritySchedulingFuel, hpop, if_neg hrt]

theorem heappop_eq_none (heap : List Process) (hpop : heappop heap = none) :
    heap = [] := by
  unfold heappop at hpop
  cases hl : heap.getLast? with
  | none =>
    cases heap with
    | nil => rfl
    | cons a t => simp at hl
  | some l =>
    rw [hl] at hpop
    dsimp only at hpop
    by_cases hemp : heap.dropLast.isEmpty
    · rw [if_pos hemp] at hpop
      exact absurd hpop (by simp)
    · rw [if_neg hemp] at hpop
      exact absurd hpop (by simp)

/-- The dispatch loop emits the admitted records (as (pid, priority) keys,
up to permutation) with non-increasing priorities. -/
theorem runPriorityFuel_spec :
    ∀ (fuel clock : Nat) (heap : List Process), heap.length ≤ fuel → HeapInv heap →
      ((runPrioritySchedulingFuel fuel clock heap).map
          (fun p => (p.pid, p.priority))).Perm
        (heap.map (fun p => (p.pid, p.priority)))
      ∧ ((runPrioritySchedulingFuel fuel clock heap).map
          Process.priority).Pairwise (fun a b => b ≤ a) := by
  intro fuel
  induction fuel with
  | zero =>
    intro clock heap hlen hinv
    have hnil : heap = [] := by
      cases heap with
      | nil => rfl
      | cons a t => simp at hlen
    subst hnil
    constructor <;> simp [runPrioritySchedulingFuel]
  | succ fuel ih =>
    intro clock heap hlen hinv
    cases hpop : heappop heap with
    | none =>
      have hnil : heap = [] := heappop_eq_none heap hpop
      subst hnil
      constructor <;> simp [runPrioritySchedulingFuel, heappop]
    | some pr =>
      obtain ⟨p, h2⟩ := pr
      obtain ⟨q, hq, hqpid, hqpri⟩ := runPriorityFuel_cons fuel clock heap p h2 hpop
      rw [hq]
      have hmset := heappop_mset heap p h2 hpop
      have hperm : (p :: h2).Perm heap := by
        rw [Multiset.cons_coe] at hmset
        exact Multiset.coe_eq_coe.mp hmset
      have hlen2 : h2.length + 1 = heap.length := by
        simpa using hperm.length_eq
      have hinv2 := heappop_heapInv heap p h2 hinv hpop
      have hmax := heappop_max heap p h2 hinv hpop
      obtain ⟨ihm, ihp⟩ := ih (clock + p.remaining_time) h2 (by omega) hinv2
      constructor
      · simp only [List.map_cons]
        rw [hqpid, hqpri]
        have hmap : ((p :: h2).map (fun r => (r.pid, r.priority))).Perm
            (heap.map (fun r => (r.pid, r.priority))) := hperm.map _
        simp only [List.map_cons] at hmap
        exact (ihm.cons _).trans hmap
      · simp only [List.map_cons]
        rw [List.pairwise_cons]
        constructor
        · intro b hb
          rw [hqpri]
          have hsnd : ((runPrioritySchedulingFuel fuel (clock + p.remaining_time)
              h2).map Process.priority).Perm (h2.map Process.priority) := by
            have hm := ihm.map Prod.snd
            rw [List.map_map, List.map_map] at hm
            exact hm
          have hb2 : b ∈ h2.map Process.priority := hsnd.mem_iff.mp hb
          obtain ⟨x, hx2, hxb⟩ := List.mem_map.mp hb2
          have hxheap : x ∈ heap := hperm.mem_iff.mp (List.mem_cons_of_mem p hx2)
          rw [← hxb]
          exact hmax x hxheap
        · exact ihp

/-- C5 (counterexample): four processes of equal priority admitted in pid
order 1, 2, 3, 4 are dispatched by `run_priority_scheduling` in the heapq
pop order 1, 3, 2, 4 — pid 3 runs before the earlier-admitted pid 2 — so
the tiebreak among equal priorities is not stable admission order. -/
theorem c5_counterexample :
    (run_priority_scheduling 0 (buildHeap
        [mkProcess 1 "a" 5 0 0, mkProcess 2 "b" 5 0 0,
         mkProcess 3 "c" 5 0 0, mkProcess 4 "d" 5 0 0])).map Process.pid
      = [1, 3, 2, 4] ∧ ([1, 3, 2, 4] : List Nat) ≠ [1, 2, 3, 4] := by
  constructor
  · simp [buildHeap, heappush, siftdownLoop, heappop, siftup, siftupLoop,
      siftupChild, run_priority_scheduling, runPrioritySchedulingFuel, procLt,
      mkProcess, parentIdx]
  · decide

/-- C5 (amended): `run_priority_scheduling` dispatches by priority — the
dispatched records' priorities are non-increasing along the dispatch order,
and their (pid, priority) keys are a permutation of the admitted records'
keys — but ties among equal priorities follow the heapq array order, not
admission order. -/
theorem c5_amended_priority_dispatch (ps : List Process) (clock : Nat) :
    ((run_priority_scheduling clock (buildHeap ps)).map
        (fun p => (p.pid, p.priority))).Perm
      (ps.map (fun p => (p.pid, p.priority)))
    ∧ ((run_priority_scheduling clock (buildHeap ps)).map
        Process.priority).Pairwise (fun a b => b ≤ a) := by
  unfold run_priority_scheduling
  obtain ⟨h1, h2⟩ := runPriorityFuel_spec (buildHeap ps).length clock (buildHeap ps)
    (Nat.le_refl _) (buildHeap_heapInv ps)
  exact ⟨h1.trans ((Multiset.coe_eq_coe.mp (buildHeap_mset ps)).map _), h2⟩

end ShellSim
